import Mathlib

/-!
Verification development for the FlatBuffers Rust builder core
(src/flatbuffers/rust/flatbuffers/src/builder.rs).

The builder is embedded shallowly: the owned byte buffer is a `List Nat`
(each entry one byte), the back-fill cursor `head` is a `Nat`, and every
operation that can abort through a hard `assert!` (capacity growth beyond
`FLATBUFFERS_MAX_BUFFER_SIZE`) returns an `Option`.  `debug_assert!`
protocol checks are not modelled operationally (they vanish in release
builds); theorems instead carry the protocol conditions as hypotheses.

Helper modules of the crate that are not part of the sources here
(push.rs, endian_scalar.rs, vtable.rs, vtable_writer.rs, primitives.rs)
are modelled from the specification, as indicated at each definition.
-/

namespace FB

/-- Maximum FlatBuffers buffer size, 2^31 - 1 bytes (primitives.rs, from the
spec wire-format section). -/
def FLATBUFFERS_MAX_BUFFER_SIZE : Nat := 2147483647

/-- Size in bytes of a forward uoffset (u32). -/
def SIZE_UOFFSET : Nat := 4

/-- Size in bytes of a signed table-to-vtable offset (i32). -/
def SIZE_SOFFSET : Nat := 4

/-- Size in bytes of a vtable slot offset (u16). -/
def SIZE_VOFFSET : Nat := 2

/-- Length of a file identifier, always 4 bytes. -/
def FILE_IDENTIFIER_LENGTH : Nat := 4

/-- Modelled from the spec: vtable.rs is not among the sources; field N of a
table uses vtable byte offset 4 + 2*N, ids 0 and 2 being reserved for the
vtable length and the object inline size. -/
def field_index_to_field_offset (idx : Nat) : Nat := (idx + 2) * 2

/-- Little-endian byte encoding of a value on `w` bytes.  Modelled from the
spec: endian_scalar.rs is not among the sources; scalars are stored
little-endian. -/
def leBytes : Nat → Nat → List Nat
  | 0, _ => []
  | w + 1, v => v % 256 :: leBytes w (v / 256)

/-- Value of a little-endian byte list. -/
def leVal : List Nat → Nat
  | [] => 0
  | b :: bs => b + 256 * leVal bs

/-- The `n`-byte window of `buf` starting at index `p`. -/
def readSlice (buf : List Nat) (p n : Nat) : List Nat := (buf.drop p).take n

/-- Overwrite `buf` starting at index `p` with the bytes `bs` (writes past the
end of `buf` are dropped, as a Rust slice write cannot reach them). -/
def writeBytes : List Nat → Nat → List Nat → List Nat
  | buf, _, [] => buf
  | buf, p, v :: vs => writeBytes (buf.set p v) (p + 1) vs

/-- Read a little-endian u16 at index `p`. -/
def readU16 (buf : List Nat) (p : Nat) : Nat := leVal (readSlice buf p 2)

/-- Read a little-endian u32 at index `p`. -/
def readU32 (buf : List Nat) (p : Nat) : Nat := leVal (readSlice buf p 4)

/-- Read a little-endian two's-complement i32 at index `p`. -/
def readI32 (buf : List Nat) (p : Nat) : Int :=
  let n := readU32 buf p
  if n < 2147483648 then (n : Int) else (n : Int) - 4294967296

/-- Encoding of an i32 as its two's-complement unsigned residue. -/
def encodeI32 (x : Int) : List Nat := leBytes 4 (x.emod 4294967296).toNat

/-- padding_bytes from builder.rs line 601: `((!buf_size) + 1) & (scalar_size - 1)`
with wrapping arithmetic on 64-bit usize. -/
def padding_bytes (buf_size scalar_size : Nat) : Nat :=
  ((18446744073709551616 - buf_size % 18446744073709551616) % 18446744073709551616) &&&
    ((scalar_size % 18446744073709551616 + 18446744073709551615) % 18446744073709551616)

/-- FieldLoc from builder.rs: a pending vtable entry, `off` is the tail-relative
position of the written field, `id` its vtable byte offset. -/
structure FieldLoc where
  off : Nat
  id : Nat
deriving DecidableEq, Repr

/-- Modelled from the spec: push.rs is not among the sources.  A Push value
exposes a size, an alignment, and its little-endian serialized bytes;
`bytes` is what the value's serializer writes into its `size`-byte slot. -/
structure PushVal where
  size : Nat
  alignment : Nat
  bytes : List Nat
deriving DecidableEq, Repr

/-- The Push value of a u8 scalar. -/
def u8P (v : Nat) : PushVal := ⟨1, 1, leBytes 1 v⟩

/-- The Push value of a u16 scalar. -/
def u16P (v : Nat) : PushVal := ⟨2, 2, leBytes 2 v⟩

/-- The Push value of a u32 scalar. -/
def u32P (v : Nat) : PushVal := ⟨4, 4, leBytes 4 v⟩

/-- Modelled from the spec: the composite Push value of a string or byte
string, `[length: u32][payload][NUL]`, aligned to 4. -/
def stringP (s : List Nat) : PushVal :=
  ⟨SIZE_UOFFSET + s.length + 1, SIZE_UOFFSET, leBytes 4 s.length ++ s ++ [0]⟩

/-- FlatBufferBuilder state (builder.rs lines 41-54). -/
structure FlatBufferBuilder where
  owned_buf : List Nat
  head : Nat
  field_locs : List FieldLoc
  written_vtable_revpos : List Nat
  nested : Bool
  finished : Bool
  min_align : Nat
deriving Repr

/-- used_space (builder.rs line 337). -/
def used_space (b : FlatBufferBuilder) : Nat := b.owned_buf.length - b.head

/-- unused_ready_space (builder.rs line 576). -/
def unused_ready_space (b : FlatBufferBuilder) : Nat := b.head

/-- new_with_capacity (builder.rs line 66); the hard assert on the size bound
is modelled by `none`. -/
def new_with_capacity (size : Nat) : Option FlatBufferBuilder :=
  if FLATBUFFERS_MAX_BUFFER_SIZE < size then none
  else some
    { owned_buf := List.replicate size 0
      head := size
      field_locs := []
      written_vtable_revpos := []
      nested := false
      finished := false
      min_align := 0 }

/-- reset (builder.rs line 96): zero the live suffix, restore `head`, clear
the written-vtable list and the flags.  Note that `field_locs` is untouched. -/
def reset (b : FlatBufferBuilder) : FlatBufferBuilder :=
  { b with
    owned_buf := writeBytes b.owned_buf b.head (List.replicate (b.owned_buf.length - b.head) 0)
    head := b.owned_buf.length
    written_vtable_revpos := []
    nested := false
    finished := false
    min_align := 0 }

/-- collapse (builder.rs line 115). -/
def collapse (b : FlatBufferBuilder) : List Nat × Nat := (b.owned_buf, b.head)

/-- grow_owned_buf (builder.rs line 467): double the capacity (minimum 1);
resize appends zeros, `head` advances by the growth delta, then the old
contents in the lower half are copied to the upper half and the lower half
is zeroed.  The hard assert on the 2 GiB bound is modelled by `none`. -/
def grow_owned_buf (b : FlatBufferBuilder) : Option FlatBufferBuilder :=
  let old_len := b.owned_buf.length
  let new_len := max 1 (old_len * 2)
  if FLATBUFFERS_MAX_BUFFER_SIZE < new_len then none
  else
    let diff := new_len - old_len
    let b1 : FlatBufferBuilder :=
      { b with owned_buf := b.owned_buf ++ List.replicate diff 0, head := b.head + diff }
    if new_len = 1 then some b1
    else
      let middle := new_len / 2
      some { b1 with owned_buf := List.replicate middle 0 ++ b1.owned_buf.take middle }

/-- The grow loop of ensure_capacity (builder.rs line 570).  The fuel is 64:
capacities at most 2^31 - 1 double on each round, so no run ever takes more
than 32 rounds and the fuel is never the reason a run stops. -/
def growUntil : Nat → Nat → FlatBufferBuilder → Option FlatBufferBuilder
  | 0, _, _ => none
  | fuel + 1, want, b =>
    if unused_ready_space b < want then (grow_owned_buf b).bind (growUntil fuel want)
    else some b

/-- ensure_capacity (builder.rs line 562). -/
def ensure_capacity (want : Nat) (b : FlatBufferBuilder) : Option FlatBufferBuilder :=
  if want ≤ unused_ready_space b then some b
  else if FLATBUFFERS_MAX_BUFFER_SIZE < want then none
  else growUntil 64 want b

/-- make_space (builder.rs line 557): ensure capacity, move `head` back,
return the new `head`. -/
def make_space (want : Nat) (b : FlatBufferBuilder) : Option (Nat × FlatBufferBuilder) :=
  (ensure_capacity want b).map fun b1 => (b1.head - want, { b1 with head := b1.head - want })

/-- fill (builder.rs line 351): reserve `n` (already zero) pad bytes. -/
def fill (n : Nat) (b : FlatBufferBuilder) : Option FlatBufferBuilder :=
  (make_space n b).map Prod.snd

/-- track_min_align (builder.rs line 548). -/
def track_min_align (alignment : Nat) (b : FlatBufferBuilder) : FlatBufferBuilder :=
  { b with min_align := max b.min_align alignment }

/-- align (builder.rs line 543). -/
def align (len alignment : Nat) (b : FlatBufferBuilder) : Option FlatBufferBuilder :=
  let b1 := track_min_align alignment b
  fill (padding_bytes (used_space b1 + len) alignment) b1

/-- push (builder.rs line 124): align, make space, serialize into
`buf[head .. head+size]`, return the post-write `used_space` as the handle. -/
def push (x : PushVal) (b : FlatBufferBuilder) : Option (Nat × FlatBufferBuilder) :=
  (align x.size x.alignment b).bind fun b1 =>
  (make_space x.size b1).map fun q =>
  let b2 := q.2
  let b3 := { b2 with owned_buf := writeBytes b2.owned_buf b2.head (x.bytes.take x.size) }
  (used_space b3, b3)

/-- track_field (builder.rs line 342): append a FieldLoc. -/
def track_field (slot_off off : Nat) (b : FlatBufferBuilder) : FlatBufferBuilder :=
  { b with field_locs := b.field_locs ++ [⟨off, slot_off⟩] }

/-- push_slot_always (builder.rs line 149). -/
def push_slot_always (slotoff : Nat) (x : PushVal) (b : FlatBufferBuilder) :
    Option FlatBufferBuilder :=
  (push x b).map fun p => track_field slotoff p.1 p.2

/-- push_slot (builder.rs line 138): a no-op when the value equals the
default. -/
def push_slot (slotoff : Nat) (x default : PushVal) (b : FlatBufferBuilder) :
    Option FlatBufferBuilder :=
  if x = default then some b else push_slot_always slotoff x b

/-- num_written_vtables (builder.rs line 158). -/
def num_written_vtables (b : FlatBufferBuilder) : Nat := b.written_vtable_revpos.length

/-- start_table (builder.rs line 168): flip `nested`, hand out the current
`used_space` as the table-tail reference point. -/
def start_table (b : FlatBufferBuilder) : Nat × FlatBufferBuilder :=
  (used_space b, { b with nested := true })

/-- Modelled from the spec: vtable.rs is not among the sources.  The byte
region of the vtable stored at index `loc`: its first u16 is its own byte
length. -/
def vtRegion (buf : List Nat) (loc : Nat) : List Nat := readSlice buf loc (readU16 buf loc)

/-- Modelled from the spec: vtable byte-equality is byte-exact equality of
the two regions, lengths included. -/
def vtEqAt (buf : List Nat) (p q : Nat) : Bool := vtRegion buf p == vtRegion buf q

/-- The vtable byte length write_vtable derives from the pending field locs
(builder.rs lines 406-410). -/
def vtableLenOf (fl : List FieldLoc) : Nat :=
  match (fl.map FieldLoc.id).max? with
  | none => field_index_to_field_offset 0
  | some mv => mv + SIZE_VOFFSET

/-- The bytes write_vtable serializes for a scratch vtable, as a pure
function: the relative writes of VTableWriter (modelled from the spec,
vtable_writer.rs is not among the sources) applied to a zeroed region of
length `vtableLenOf fl`. -/
def synthVT (fl : List FieldLoc) (ovr objSize : Nat) : List Nat :=
  fl.foldl (fun r l => writeBytes r l.id (leBytes 2 ((ovr - l.off) % 65536)))
    (writeBytes (writeBytes (List.replicate (vtableLenOf fl) 0) 0
        (leBytes 2 (vtableLenOf fl % 65536))) 2
      (leBytes 2 (objSize % 65536)))

/-- The in-place population step of write_vtable (builder.rs lines 415-428):
the scratch region of length `vtable_len` at the cursor receives, through
VTableWriter (modelled from the spec, vtable_writer.rs is not among the
sources), the vtable byte length, the object inline size `ovr - ttr`, and
one u16 slot per pending field loc, each cast to u16. -/
def wvWriteRegion (ovr ttr vtable_len : Nat) (b2 : FlatBufferBuilder) : FlatBufferBuilder :=
  let vt_start_pos := b2.head
  let region0 := readSlice b2.owned_buf vt_start_pos vtable_len
  let region1 := writeBytes region0 0 (leBytes 2 (vtable_len % 65536))
  let region2 := writeBytes region1 2 (leBytes 2 ((ovr - ttr) % 65536))
  let region3 := b2.field_locs.foldl
    (fun r fl => writeBytes r fl.id (leBytes 2 ((ovr - fl.off) % 65536)))
    region2
  { b2 with owned_buf := writeBytes b2.owned_buf vt_start_pos region3 }

/-- The dedup scan of write_vtable (builder.rs lines 429-447): walk the
written vtable revpos list newest-first; on the first byte-equal match,
zero the scratch vtable, release it by advancing the cursor, and reuse the
match; otherwise keep the fresh vtable at the current used_space. -/
def wvDedup (vtable_len : Nat) (b3 : FlatBufferBuilder) : Nat × FlatBufferBuilder :=
  match b3.written_vtable_revpos.reverse.find? fun r =>
      vtEqAt b3.owned_buf b3.head (b3.head + used_space b3 - r) with
  | some r =>
    (r, { b3 with
          owned_buf := writeBytes b3.owned_buf b3.head (List.replicate vtable_len 0)
          head := b3.head + vtable_len })
  | none => (used_space b3, b3)

/-- The soffset patch of write_vtable (builder.rs lines 453-461): overwrite
the 0xF0F0F0F0 sentinel at buffer index `head + used_space - ovr` with the
signed offset from the table start to the chosen vtable. -/
def wvPatch (ovr vt_use : Nat) (b5 : FlatBufferBuilder) : FlatBufferBuilder :=
  { b5 with
    owned_buf := writeBytes b5.owned_buf (b5.head + used_space b5 - ovr)
      (encodeI32 ((vt_use : Int) - (ovr : Int))) }

/-- The bookkeeping step of write_vtable (builder.rs lines 449-451): a fresh
vtable, recognizable because the chosen revpos still equals the current
used_space, is appended to the written-vtable list. -/
def wvRecord (vb : Nat × FlatBufferBuilder) : FlatBufferBuilder :=
  if vb.1 = used_space vb.2 then
    { vb.2 with written_vtable_revpos := vb.2.written_vtable_revpos ++ [vb.1] }
  else vb.2

/-- The tail of write_vtable after the scratch vtable region has been
reserved: populate it, dedup, record the revpos on a miss, patch the
sentinel, clear the field locs. -/
def wvFinish (ovr ttr vtable_len : Nat) (b2 : FlatBufferBuilder) : FlatBufferBuilder :=
  { wvPatch ovr (wvDedup vtable_len (wvWriteRegion ovr ttr vtable_len b2)).1
      (wvRecord (wvDedup vtable_len (wvWriteRegion ovr ttr vtable_len b2))) with
    field_locs := [] }

/-- write_vtable (builder.rs lines 357-466): push the 0xF0F0F0F0 soffset
sentinel, reserve and populate the scratch vtable in place, dedup-scan the
written vtables newest-first, release (and zero) the scratch region on a
match, record the revpos on a miss, then patch the sentinel with the signed
offset to the chosen vtable and clear the field locs. -/
def write_vtable (table_tail_revloc : Nat) (b : FlatBufferBuilder) :
    Option (Nat × FlatBufferBuilder) :=
  (push (u32P 4042322160) b).bind fun p =>
  let vtable_len := vtableLenOf p.2.field_locs
  (fill vtable_len p.2).map fun b2 =>
  (p.1, wvFinish p.1 table_tail_revloc vtable_len b2)

/-- end_table (builder.rs line 179). -/
def end_table (off : Nat) (b : FlatBufferBuilder) : Option (Nat × FlatBufferBuilder) :=
  (write_vtable off b).map fun p => (p.1, { p.2 with nested := false, field_locs := [] })

/-- start_vector (builder.rs line 198). -/
def start_vector (len elem_size : Nat) (b : FlatBufferBuilder) : Option FlatBufferBuilder :=
  let b0 := { b with nested := true }
  (align (len * elem_size) SIZE_UOFFSET b0).bind fun b1 =>
  align (len * elem_size) elem_size b1

/-- end_vector (builder.rs line 212). -/
def end_vector (num_elems : Nat) (b : FlatBufferBuilder) : Option (Nat × FlatBufferBuilder) :=
  push (u32P num_elems) { b with nested := false }

/-- create_string (builder.rs line 223): push the zero-terminated composite,
return the post-push `used_space`. -/
def create_string (s : List Nat) (b : FlatBufferBuilder) : Option (Nat × FlatBufferBuilder) :=
  (push (stringP s) b).map fun p => (used_space p.2, p.2)

/-- Push each element of a list in the given order. -/
def pushAll : List PushVal → FlatBufferBuilder → Option FlatBufferBuilder
  | [], b => some b
  | x :: xs, b => (push x b).bind fun p => pushAll xs p.2

/-- create_vector (builder.rs line 273).  Note the argument order of the
inner call in the source: `start_vector(elemsize, items.len())`, with the
element size passed as the length and the item count as the element size. -/
def create_vector (elem_size : Nat) (items : List PushVal) (b : FlatBufferBuilder) :
    Option (Nat × FlatBufferBuilder) :=
  (start_vector elem_size items.length b).bind fun b1 =>
  (pushAll items.reverse b1).bind fun b2 =>
  end_vector items.length b2

/-- unfinished_data (builder.rs line 286). -/
def unfinished_data (b : FlatBufferBuilder) : List Nat := b.owned_buf.drop b.head

/-- finished_data (builder.rs line 292); the finished check is a debug
assertion and is carried as a hypothesis where it matters. -/
def finished_data (b : FlatBufferBuilder) : List Nat := b.owned_buf.drop b.head

/-- push_bytes_unprefixed (builder.rs line 551). -/
def push_bytes_unprefixed (x : List Nat) (b : FlatBufferBuilder) :
    Option (Nat × FlatBufferBuilder) :=
  (make_space x.length b).map fun q =>
  (q.1, { q.2 with owned_buf := writeBytes q.2.owned_buf q.2.head x })

/-- Modelled from the spec: push.rs is not among the sources.  Pushing a
WIPOffset serializes the forward uoffset `SIZE_UOFFSET + rest.len() - value`,
the distance from the written word to the referent, so it cannot be a fixed
PushVal; this is the push path used for the root offset and for vectors of
offsets. -/
def pushWIP (value : Nat) (b : FlatBufferBuilder) : Option (Nat × FlatBufferBuilder) :=
  (align SIZE_UOFFSET SIZE_UOFFSET b).bind fun b1 =>
  (make_space SIZE_UOFFSET b1).map fun q =>
  let b2 := q.2
  let n := SIZE_UOFFSET + (used_space b2 - SIZE_UOFFSET) - value
  let b3 := { b2 with owned_buf := writeBytes b2.owned_buf b2.head (leBytes 4 n) }
  (used_space b3, b3)

/-- finish_with_opts (builder.rs line 502). -/
def finish_with_opts (root : Nat) (file_identifier : Option (List Nat)) (size_prefixed : Bool)
    (b : FlatBufferBuilder) : Option FlatBufferBuilder :=
  let b0 := { b with written_vtable_revpos := [] }
  let to_align := SIZE_UOFFSET + (if size_prefixed then SIZE_UOFFSET else 0) +
    (if file_identifier.isSome then FILE_IDENTIFIER_LENGTH else 0)
  (align to_align b0.min_align b0).bind fun b1 =>
  (match file_identifier with
   | some ident => (push_bytes_unprefixed ident b1).map Prod.snd
   | none => some b1).bind fun b2 =>
  (pushWIP root b2).bind fun p =>
  let b3 := p.2
  (if size_prefixed then (push (u32P (used_space b3)) b3).map Prod.snd
   else some b3).map fun (b4 : FlatBufferBuilder) => { b4 with finished := true }

/-- finish_minimal (builder.rs line 332). -/
def finish_minimal (root : Nat) (b : FlatBufferBuilder) : Option FlatBufferBuilder :=
  finish_with_opts root none false b

/-- finish (builder.rs line 324). -/
def finish (root : Nat) (file_identifier : Option (List Nat)) (b : FlatBufferBuilder) :
    Option FlatBufferBuilder :=
  finish_with_opts root file_identifier false b

/-- finish_size_prefixed (builder.rs line 315). -/
def finish_size_prefixed (root : Nat) (file_identifier : Option (List Nat))
    (b : FlatBufferBuilder) : Option FlatBufferBuilder :=
  finish_with_opts root file_identifier true b

/-- Run a list of push_slot calls, each given as (slot id, value, default). -/
def runSlots : List (Nat × PushVal × PushVal) → FlatBufferBuilder → Option FlatBufferBuilder
  | [], b => some b
  | f :: fs, b => (push_slot f.1 f.2.1 f.2.2 b).bind (runSlots fs)

/-- Structural well-formedness of a builder state: the cursor is inside the
buffer, the buffer respects the format bound, and the scratch region below
the cursor is all zero. -/
structure Good (b : FlatBufferBuilder) : Prop where
  hle : b.head ≤ b.owned_buf.length
  cle : b.owned_buf.length ≤ FLATBUFFERS_MAX_BUFFER_SIZE
  scratch : ∀ i, i < b.head → b.owned_buf.getD i 0 = 0

/-- The bytes `bs` sit at tail-relative position `off` of the builder data:
a handle of value `off` refers to them. -/
def hasBytesAt (b : FlatBufferBuilder) (off : Nat) (bs : List Nat) : Prop :=
  bs.length ≤ off ∧ off ≤ used_space b ∧
    readSlice (unfinished_data b) (used_space b - off) bs.length = bs

/-- Builder states reachable through the public operations.  create_byte_string
and create_vector_direct have the same state effect as a plain push of their
composite Push value, so the push constructor covers them. -/
inductive Reachable : FlatBufferBuilder → Prop
  | new : ∀ {n b}, new_with_capacity n = some b → Reachable b
  | reset : ∀ {b}, Reachable b → Reachable (reset b)
  | push : ∀ {b x p}, Reachable b → push x b = some p → Reachable p.2
  | pushWIP : ∀ {b v p}, Reachable b → pushWIP v b = some p → Reachable p.2
  | push_slot : ∀ {b i x d b2}, Reachable b → push_slot i x d b = some b2 → Reachable b2
  | push_slot_always : ∀ {b i x b2}, Reachable b → push_slot_always i x b = some b2 →
      Reachable b2
  | start_table : ∀ {b}, Reachable b → Reachable (start_table b).2
  | end_table : ∀ {b t p}, Reachable b → end_table t b = some p → Reachable p.2
  | start_vector : ∀ {b l e b2}, Reachable b → start_vector l e b = some b2 → Reachable b2
  | end_vector : ∀ {b n p}, Reachable b → end_vector n b = some p → Reachable p.2
  | create_string : ∀ {b s p}, Reachable b → create_string s b = some p → Reachable p.2
  | create_vector : ∀ {b e xs p}, Reachable b → create_vector e xs b = some p → Reachable p.2
  | finish : ∀ {b r fi sp b2}, Reachable b → finish_with_opts r fi sp b = some b2 →
      Reachable b2

/-- A builder whose capacity of 2^30 bytes is fully in use: legal (2^30 is
well below the 2 GiB bound) yet unable to grow, since doubling would exceed
FLATBUFFERS_MAX_BUFFER_SIZE. -/
def bigBuilder : FlatBufferBuilder :=
  { owned_buf := List.replicate 1073741824 0
    head := 1073741824
    field_locs := []
    written_vtable_revpos := []
    nested := false
    finished := false
    min_align := 0 }

/-- Upper bound on the bytes a push_slot sequence can add: each push adds at
most its size plus its alignment of padding. -/
def sumSA (fields : List (Nat × PushVal × PushVal)) : Nat :=
  (fields.map fun f => f.2.1.size + f.2.1.alignment).sum

/-- The buffer index of the vtable of the finished table with handle `t`,
obtained the way a reader does: the table start minus the signed soffset
stored there. -/
def vtPosN (b : FlatBufferBuilder) (t : Nat) : Nat :=
  ((b.owned_buf.length - t : Int) - readI32 b.owned_buf (b.owned_buf.length - t)).toNat

/-- Well-formedness of one push_slot argument triple (slot id, value,
default): the id is an even vtable offset at least 4 within the u16 range,
the value serializes to exactly its size, its alignment is a power of two,
and the value differs from the default. -/
def wfField (f : Nat × PushVal × PushVal) : Prop :=
  4 ≤ f.1 ∧ f.1 % 2 = 0 ∧ f.1 ≤ 65532 ∧
    f.2.1.bytes.length = f.2.1.size ∧ (∃ k, k ≤ 32 ∧ f.2.1.alignment = 2 ^ k) ∧
    f.2.1 ≠ f.2.2

/-- The builder new_with_capacity 0 yields: an empty arena. -/
def fbEmpty : FlatBufferBuilder :=
  { owned_buf := []
    head := 0
    field_locs := []
    written_vtable_revpos := []
    nested := false
    finished := false
    min_align := 0 }

/-- The builder new_with_capacity 4 yields. -/
def fbCap4 : FlatBufferBuilder :=
  { owned_buf := [0, 0, 0, 0]
    head := 4
    field_locs := []
    written_vtable_revpos := []
    nested := false
    finished := false
    min_align := 0 }

/-- A one-byte builder whose arena is full: its single data byte is 7. -/
def fbOne : FlatBufferBuilder :=
  { owned_buf := [7]
    head := 0
    field_locs := []
    written_vtable_revpos := []
    nested := false
    finished := false
    min_align := 1 }

/-- The builder grow_owned_buf produces from fbOne. -/
def fbGrown : FlatBufferBuilder :=
  { owned_buf := [0, 7]
    head := 1
    field_locs := []
    written_vtable_revpos := []
    nested := false
    finished := false
    min_align := 1 }

/-- The result of pushing the u16 0x1234 onto a fresh zero-capacity builder. -/
def c4Res : Nat × FlatBufferBuilder :=
  (2,
   { owned_buf := [52, 18]
     head := 0
     field_locs := []
     written_vtable_revpos := []
     nested := false
     finished := false
     min_align := 2 })

/-- The bookkeeping fields an arena-level operation leaves untouched. -/
def SameMeta (b b2 : FlatBufferBuilder) : Prop :=
  b2.field_locs = b.field_locs ∧ b2.written_vtable_revpos = b.written_vtable_revpos ∧
    b2.nested = b.nested ∧ b2.finished = b.finished

/-- A one-field table run: slot id 4, value u16 0x1234, default u16 0. -/
def c1Fields : List (Nat × PushVal × PushVal) := [(4, u16P 4660, u16P 0)]

/-- The builder state after start_table and the one push_slot of c1Fields. -/
def c1Mid : FlatBufferBuilder :=
  { owned_buf := [52, 18]
    head := 0
    field_locs := [⟨2, 4⟩]
    written_vtable_revpos := []
    nested := true
    finished := false
    min_align := 2 }

/-- The handle and builder after end_table of the c1Fields run. -/
def c1Fin : Nat × FlatBufferBuilder :=
  (8,
    { owned_buf := [0, 0, 6, 0, 8, 0, 6, 0, 6, 0, 0, 0, 0, 0, 52, 18]
      head := 2
      field_locs := []
      written_vtable_revpos := [14]
      nested := false
      finished := false
      min_align := 4 })

/-- The builder mid-way through the first empty table (after start_table). -/
def c3M1 : FlatBufferBuilder :=
  { owned_buf := []
    head := 0
    field_locs := []
    written_vtable_revpos := []
    nested := true
    finished := false
    min_align := 0 }

/-- The handle and builder after the first empty table's end_table. -/
def c3Pr1 : Nat × FlatBufferBuilder :=
  (4,
    { owned_buf := [4, 0, 4, 0, 4, 0, 0, 0]
      head := 0
      field_locs := []
      written_vtable_revpos := [8]
      nested := false
      finished := false
      min_align := 4 })

/-- The builder mid-way through the second empty table (after start_table). -/
def c3M2 : FlatBufferBuilder :=
  { owned_buf := [4, 0, 4, 0, 4, 0, 0, 0]
    head := 0
    field_locs := []
    written_vtable_revpos := [8]
    nested := true
    finished := false
    min_align := 4 }

/-- The handle and builder after the second empty table's end_table: the
vtable was deduplicated, so nothing new was recorded. -/
def c3Pr2 : Nat × FlatBufferBuilder :=
  (12,
    { owned_buf := [0, 0, 0, 0, 252, 255, 255, 255, 4, 0, 4, 0, 4, 0, 0, 0]
      head := 4
      field_locs := []
      written_vtable_revpos := [8]
      nested := false
      finished := false
      min_align := 4 })

theorem length_writeBytes (bs buf : List Nat) (p : Nat) :
    (writeBytes buf p bs).length = buf.length := by
  induction bs generalizing buf p with
  | nil => rfl
  | cons v vs ih => rw [writeBytes, ih, List.length_set]

theorem getD_set_ne {buf : List Nat} {p i : Nat} (v : Nat) (h : p ≠ i) :
    (buf.set p v).getD i 0 = buf.getD i 0 := by
  simp [List.getD_eq_getElem?_getD, List.getElem?_set, h]

theorem getD_writeBytes_lt {bs buf : List Nat} {p i : Nat} (h : i < p) :
    (writeBytes buf p bs).getD i 0 = buf.getD i 0 := by
  induction bs generalizing buf p with
  | nil => rfl
  | cons v vs ih =>
    rw [writeBytes, ih (by omega), getD_set_ne _ (by omega)]

theorem getD_writeBytes_ge {bs buf : List Nat} {p i : Nat} (h : p + bs.length ≤ i) :
    (writeBytes buf p bs).getD i 0 = buf.getD i 0 := by
  induction bs generalizing buf p with
  | nil => rfl
  | cons v vs ih =>
    rw [writeBytes, ih (by simp at h; omega), getD_set_ne _ (by simp at h; omega)]

theorem getD_writeBytes_in {bs buf : List Nat} {p j : Nat}
    (hlen : p + bs.length ≤ buf.length) (hj : j < bs.length) :
    (writeBytes buf p bs).getD (p + j) 0 = bs.getD j 0 := by
  induction bs generalizing buf p j with
  | nil => exact absurd hj (by simp)
  | cons v vs ih =>
    match j with
    | 0 =>
      rw [writeBytes, getD_writeBytes_lt (by omega)]
      have hp : p < buf.length := by simp at hlen; omega
      simp [List.getD_eq_getElem?_getD, List.getElem?_set, hp]
    | j + 1 =>
      have : p + (j + 1) = (p + 1) + j := by omega
      rw [writeBytes, this, ih (by simp at hlen ⊢; omega) (by simp at hj; omega)]
      rfl

theorem length_readSlice {buf : List Nat} {p n : Nat} (h : p + n ≤ buf.length) :
    (readSlice buf p n).length = n := by
  simp [readSlice]
  omega

theorem getD_readSlice {buf : List Nat} {p n j : Nat} (hj : j < n)
    (h : p + n ≤ buf.length) :
    (readSlice buf p n).getD j 0 = buf.getD (p + j) 0 := by
  have hjl : j < (readSlice buf p n).length := by rw [length_readSlice h]; exact hj
  have hpj : p + j < buf.length := by omega
  rw [List.getD_eq_getElem _ _ hjl, List.getD_eq_getElem _ _ hpj]
  simp [readSlice, List.getElem_take, List.getElem_drop]

theorem readSlice_congr {buf buf2 : List Nat} {p p2 n : Nat}
    (h1 : p + n ≤ buf.length) (h2 : p2 + n ≤ buf2.length)
    (hpt : ∀ j, j < n → buf.getD (p + j) 0 = buf2.getD (p2 + j) 0) :
    readSlice buf p n = readSlice buf2 p2 n := by
  apply List.ext_getElem
  · rw [length_readSlice h1, length_readSlice h2]
  · intro j hj1 hj2
    have hjn : j < n := by rw [length_readSlice h1] at hj1; exact hj1
    rw [← List.getD_eq_getElem _ 0 hj1, ← List.getD_eq_getElem _ 0 hj2,
      getD_readSlice hjn h1, getD_readSlice hjn h2]
    exact hpt j hjn

theorem readSlice_writeBytes_before {bs buf : List Nat} {p n q : Nat}
    (hq : p + n ≤ q) (h : p + n ≤ buf.length) :
    readSlice (writeBytes buf q bs) p n = readSlice buf p n := by
  apply readSlice_congr (by rw [length_writeBytes]; exact h) h
  intro j hj
  exact getD_writeBytes_lt (by omega)

theorem readSlice_writeBytes_after {bs buf : List Nat} {p n q : Nat}
    (hq : q + bs.length ≤ p) (h : p + n ≤ buf.length) :
    readSlice (writeBytes buf q bs) p n = readSlice buf p n := by
  apply readSlice_congr (by rw [length_writeBytes]; exact h) h
  intro j hj
  exact getD_writeBytes_ge (by omega)

theorem readSlice_writeBytes_self {bs buf : List Nat} {p : Nat}
    (h : p + bs.length ≤ buf.length) :
    readSlice (writeBytes buf p bs) p bs.length = bs := by
  apply List.ext_getElem
  · rw [length_readSlice (by rw [length_writeBytes]; exact h)]
  · intro j hj1 hj2
    have hjn : j < bs.length := by
      rw [length_readSlice (by rw [length_writeBytes]; exact h)] at hj1; exact hj1
    rw [← List.getD_eq_getElem _ 0 hj1, ← List.getD_eq_getElem _ 0 hj2,
      getD_readSlice hjn (by rw [length_writeBytes]; exact h), getD_writeBytes_in h hjn]

theorem writeBytes_drop {bs buf : List Nat} {h : Nat} (hlen : h + bs.length ≤ buf.length) :
    (writeBytes buf h bs).drop h = bs ++ buf.drop (h + bs.length) := by
  apply List.ext_getElem
  · simp [length_writeBytes]
    omega
  · intro j hj1 hj2
    rw [← List.getD_eq_getElem _ 0 hj1, ← List.getD_eq_getElem _ 0 hj2]
    have hlw : (writeBytes buf h bs).length = buf.length := length_writeBytes _ _ _
    have hdg : ∀ (l : List Nat) (a k : Nat), (l.drop a).getD k 0 = l.getD (a + k) 0 := by
      intro l a k
      simp [List.getD_eq_getElem?_getD, List.getElem?_drop]
    rw [hdg]
    by_cases hc : j < bs.length
    · rw [getD_writeBytes_in hlen hc]
      have : (bs ++ buf.drop (h + bs.length)).getD j 0 = bs.getD j 0 := by
        simp [List.getD_eq_getElem?_getD, List.getElem?_append_left hc]
      rw [this]
    · push_neg at hc
      rw [getD_writeBytes_ge (by omega)]
      have : (bs ++ buf.drop (h + bs.length)).getD j 0 =
          (buf.drop (h + bs.length)).getD (j - bs.length) 0 := by
        simp [List.getD_eq_getElem?_getD, List.getElem?_append_right hc]
      rw [this, hdg]
      congr 1
      omega

theorem length_leBytes (w v : Nat) : (leBytes w v).length = w := by
  induction w generalizing v with
  | zero => rfl
  | succ w ih => simp [leBytes, ih]

theorem leVal_leBytes (w v : Nat) : leVal (leBytes w v) = v % 256 ^ w := by
  induction w generalizing v with
  | zero => simp [leBytes, leVal, Nat.mod_one]
  | succ w ih =>
    rw [leBytes, leVal, ih]
    have h256 : (256 : Nat) ^ (w + 1) = 256 * 256 ^ w := by ring
    rw [h256, Nat.mod_mul]

theorem leBytes_inj {w v v2 : Nat} (hv : v < 256 ^ w) (hv2 : v2 < 256 ^ w)
    (h : leBytes w v = leBytes w v2) : v = v2 := by
  have := congrArg leVal h
  rw [leVal_leBytes, leVal_leBytes, Nat.mod_eq_of_lt hv, Nat.mod_eq_of_lt hv2] at this
  exact this

theorem getD_append_left {t l : List Nat} {i : Nat} (h : i < t.length) :
    (t ++ l).getD i 0 = t.getD i 0 := by
  simp [List.getD_eq_getElem?_getD, List.getElem?_append_left h]

theorem getD_append_right {t l : List Nat} {i : Nat} (h : t.length ≤ i) :
    (t ++ l).getD i 0 = l.getD (i - t.length) 0 := by
  simp [List.getD_eq_getElem?_getD, List.getElem?_append_right h]

theorem getD_replicate {n i : Nat} : (List.replicate n (0 : Nat)).getD i 0 = 0 := by
  simp [List.getD_eq_getElem?_getD, List.getElem?_replicate]
  split <;> rfl

theorem getD_drop (l : List Nat) (a k : Nat) : (l.drop a).getD k 0 = l.getD (a + k) 0 := by
  simp [List.getD_eq_getElem?_getD, List.getElem?_drop]

theorem readSlice_append_right (t l : List Nat) (x n : Nat) :
    readSlice (t ++ l) (t.length + x) n = readSlice l x n := by
  simp [readSlice, List.drop_append]

theorem writeBytes_drop_ge {bs buf : List Nat} {p q : Nat} (h : p + bs.length ≤ q) :
    (writeBytes buf p bs).drop q = buf.drop q := by
  apply List.ext_getElem
  · simp [length_writeBytes]
  · intro j hj1 hj2
    rw [← List.getD_eq_getElem _ 0 hj1, ← List.getD_eq_getElem _ 0 hj2]
    have hdg : ∀ (l : List Nat) (a k : Nat), (l.drop a).getD k 0 = l.getD (a + k) 0 := by
      intro l a k
      simp [List.getD_eq_getElem?_getD, List.getElem?_drop]
    rw [hdg, hdg, getD_writeBytes_ge (by omega)]

theorem drop_set_ge {buf : List Nat} {i h : Nat} (hle : h ≤ i) (v : Nat) :
    (buf.set i v).drop h = (buf.drop h).set (i - h) v := by
  by_cases hbig : i < buf.length
  · apply List.ext_getElem
    · simp
    · intro j hj1 hj2
      rw [← List.getD_eq_getElem _ 0 hj1, ← List.getD_eq_getElem _ 0 hj2, getD_drop]
      by_cases hc : h + j = i
      · rw [hc]
        have hL : (buf.set i v).getD i 0 = v := by
          rw [List.getD_eq_getElem?_getD, List.getElem?_set, if_pos rfl, if_pos hbig]
          rfl
        have hR : ((buf.drop h).set (i - h) v).getD (i - h) 0 = v := by
          rw [List.getD_eq_getElem?_getD, List.getElem?_set, if_pos rfl,
            if_pos (by simp; omega)]
          rfl
        have hj : j = i - h := by omega
        rw [hL, hj, hR]
      · rw [getD_set_ne _ (by omega),
          show ((buf.drop h).set (i - h) v).getD j 0 = (buf.drop h).getD j 0 from
            getD_set_ne _ (by omega), getD_drop]
  · push_neg at hbig
    rw [List.set_eq_of_length_le hbig, List.set_eq_of_length_le (by simp; omega)]

theorem drop_writeBytes_shift {bs : List Nat} : ∀ {buf : List Nat} {h p : Nat}, h ≤ p →
    (writeBytes buf p bs).drop h = writeBytes (buf.drop h) (p - h) bs := by
  induction bs with
  | nil => intro buf h p _; rfl
  | cons v vs ih =>
    intro buf h p hp
    rw [writeBytes, ih (by omega), drop_set_ge hp]
    rw [show p + 1 - h = (p - h) + 1 from by omega]
    rfl

theorem set_append_skip {l t : List Nat} {q : Nat} (v : Nat) :
    (t ++ l).set (t.length + q) v = t ++ l.set q v := by
  by_cases hq : q < l.length
  · apply List.ext_getElem
    · simp
    · intro j hj1 hj2
      rw [← List.getD_eq_getElem _ 0 hj1, ← List.getD_eq_getElem _ 0 hj2]
      by_cases hc : j = t.length + q
      · subst hc
        have hL : ((t ++ l).set (t.length + q) v).getD (t.length + q) 0 = v := by
          rw [List.getD_eq_getElem?_getD, List.getElem?_set, if_pos rfl,
            if_pos (by simp; omega)]
          rfl
        have hR : (t ++ l.set q v).getD (t.length + q) 0 = v := by
          rw [getD_append_right (by omega), show t.length + q - t.length = q from by omega,
            List.getD_eq_getElem?_getD, List.getElem?_set, if_pos rfl, if_pos hq]
          rfl
        rw [hL, hR]
      · by_cases hjt : j < t.length
        · rw [getD_set_ne _ (by omega), getD_append_left hjt, getD_append_left hjt]
        · push_neg at hjt
          rw [getD_set_ne _ (by omega), getD_append_right hjt, getD_append_right hjt,
            getD_set_ne _ (by omega)]
  · push_neg at hq
    rw [List.set_eq_of_length_le (by simp; omega), List.set_eq_of_length_le (by omega)]

theorem writeBytes_append_skip {bs : List Nat} : ∀ {l t : List Nat} {q : Nat},
    writeBytes (t ++ l) (t.length + q) bs = t ++ writeBytes l q bs := by
  induction bs with
  | nil => intro l t q; rfl
  | cons v vs ih =>
    intro l t q
    rw [writeBytes, writeBytes, set_append_skip,
      show t.length + q + 1 = t.length + (q + 1) from by omega]
    exact ih

theorem writeBytes_prefix_replace {bs t l : List Nat} (h : bs.length = t.length) :
    writeBytes (t ++ l) 0 bs = bs ++ l := by
  induction bs generalizing t with
  | nil =>
    match t, h with
    | [], _ => rfl
  | cons v vs ih =>
    match t, h with
    | w :: ws, h =>
      rw [writeBytes]
      have hset : ((w :: ws) ++ l).set 0 v = (v :: ws) ++ l := rfl
      rw [hset]
      have hcons : (v :: ws) ++ l = v :: (ws ++ l) := rfl
      rw [hcons]
      have hstep : writeBytes (v :: (ws ++ l)) 1 vs = v :: writeBytes (ws ++ l) 0 vs := by
        have := @writeBytes_append_skip vs (ws ++ l) [v] 0
        simp at this
        exact this
      rw [hstep, ih (by simp at h; omega)]
      rfl

theorem readSlice_append_left {t l : List Nat} {p n : Nat} (h : p + n ≤ t.length) :
    readSlice (t ++ l) p n = readSlice t p n := by
  apply readSlice_congr (by simp; omega) h
  intro j hj
  exact getD_append_left (by omega)

theorem readSlice_take_of_le {l : List Nat} {p n m : Nat} (h : n ≤ m) :
    readSlice l p n = (readSlice l p m).take n := by
  show (l.drop p).take n = ((l.drop p).take m).take n
  rw [List.take_take]
  congr 1
  omega

theorem used_space_eq_length (b : FlatBufferBuilder) :
    used_space b = (unfinished_data b).length := by
  simp [used_space, unfinished_data]

theorem padding_bytes_pow2 (s k : Nat) (hk : k ≤ 32) (hs : s ≤ 17179869184) :
    padding_bytes s (2 ^ k) < 2 ^ k ∧ (s + padding_bytes s (2 ^ k)) % 2 ^ k = 0 := by
  have hP : (18446744073709551616 : Nat) = 2 ^ 64 := by norm_num
  have hklt : (2 : Nat) ^ k < 2 ^ 64 := by
    calc (2 : Nat) ^ k ≤ 2 ^ 32 := Nat.pow_le_pow_right (by norm_num) hk
    _ < 2 ^ 64 := by norm_num
  have hs64 : s < 2 ^ 64 := by
    calc s ≤ 17179869184 := hs
    _ < 2 ^ 64 := by norm_num
  have hone : (1 : Nat) ≤ 2 ^ k := Nat.one_le_two_pow
  have hmask : ((2 : Nat) ^ k % 2 ^ 64 + (2 ^ 64 - 1)) % 2 ^ 64 = 2 ^ k - 1 := by
    rw [Nat.mod_eq_of_lt hklt]
    have hsum : (2 : Nat) ^ k + (2 ^ 64 - 1) = (2 ^ k - 1) + 2 ^ 64 := by omega
    rw [hsum, Nat.add_mod_right, Nat.mod_eq_of_lt (by omega)]
  have hmain : padding_bytes s (2 ^ k) = (2 ^ 64 - s) % 2 ^ k := by
    unfold padding_bytes
    rw [hP]
    have h1615 : (18446744073709551615 : Nat) = 2 ^ 64 - 1 := by norm_num
    rw [h1615, hmask, Nat.mod_eq_of_lt hs64, Nat.and_pow_two_sub_one_eq_mod,
      Nat.mod_mod_of_dvd _ (pow_dvd_pow 2 (by omega))]
  constructor
  · rw [hmain]
    exact Nat.mod_lt _ (Nat.pos_pow_of_pos k (by norm_num))
  · rw [hmain, Nat.add_mod, Nat.mod_mod_of_dvd _ (dvd_refl _), ← Nat.add_mod]
    have hsum : s + (2 ^ 64 - s) = 2 ^ 64 := by omega
    rw [hsum]
    have hk64 : k + (64 - k) = 64 := by omega
    have h64 : (2 : Nat) ^ 64 = 2 ^ k * 2 ^ (64 - k) := by
      rw [← pow_add, hk64]
    rw [h64, Nat.mul_mod_right]

theorem drop_head_sub {buf : List Nat} {h w : Nat} (hw : w ≤ h) (hh : h ≤ buf.length)
    (hz : ∀ i, i < h → buf.getD i 0 = 0) :
    buf.drop (h - w) = List.replicate w 0 ++ buf.drop h := by
  apply List.ext_getElem
  · simp
    omega
  · intro j hj1 hj2
    rw [← List.getD_eq_getElem _ 0 hj1, ← List.getD_eq_getElem _ 0 hj2, getD_drop]
    by_cases hc : j < w
    · rw [getD_append_left (by simp; omega), hz _ (by omega), getD_replicate]
    · push_neg at hc
      rw [getD_append_right (by simp; omega), getD_drop]
      congr 1
      simp
      omega

theorem hasBytesAt_extend {b b2 : FlatBufferBuilder} {off : Nat} {bs t : List Nat}
    (h : hasBytesAt b off bs) (he : unfinished_data b2 = t ++ unfinished_data b) :
    hasBytesAt b2 off bs := by
  obtain ⟨h1, h2, h3⟩ := h
  have hu2 : used_space b2 = t.length + used_space b := by
    rw [used_space_eq_length, he, List.length_append, used_space_eq_length]
  refine ⟨h1, by omega, ?_⟩
  rw [he, hu2]
  have : t.length + used_space b - off = t.length + (used_space b - off) := by omega
  rw [this, readSlice_append_right]
  exact h3

theorem grow_spec {b b2 : FlatBufferBuilder} (hg : Good b) (h : grow_owned_buf b = some b2) :
    Good b2 ∧ unfinished_data b2 = unfinished_data b ∧ used_space b2 = used_space b ∧
      SameMeta b b2 ∧ b2.min_align = b.min_align ∧
      b2.owned_buf.length = max 1 (b.owned_buf.length * 2) ∧
      b2.head = b.head + (b2.owned_buf.length - b.owned_buf.length) := by
  obtain ⟨buf, hd, fl, wv, nst, fin, ma⟩ := b
  have hle2 : hd ≤ buf.length := hg.hle
  have hscr : ∀ i, i < hd → buf.getD i 0 = 0 := hg.scratch
  simp only [grow_owned_buf] at h
  by_cases hbig : FLATBUFFERS_MAX_BUFFER_SIZE < max 1 (buf.length * 2)
  · rw [if_pos hbig] at h
    exact absurd h (by simp)
  · rw [if_neg hbig] at h
    by_cases hone : max 1 (buf.length * 2) = 1
    · rw [if_pos hone, hone] at h
      have hlen0 : buf.length = 0 := by omega
      have hbnil : buf = [] := List.length_eq_zero.mp hlen0
      subst hbnil
      have hh0 : hd = 0 := by
        simp at hle2
        exact hle2
      subst hh0
      obtain rfl := (Option.some.inj h).symm
      refine ⟨⟨?_, ?_, ?_⟩, ?_, ?_, ⟨rfl, rfl, rfl, rfl⟩, rfl, ?_, ?_⟩
      · show 0 + (1 - List.length []) ≤ (([] : List Nat) ++ List.replicate (1 - List.length ([] : List Nat)) 0).length
        simp
      · show (([] : List Nat) ++ List.replicate (1 - List.length ([] : List Nat)) 0).length ≤
          FLATBUFFERS_MAX_BUFFER_SIZE
        simp [FLATBUFFERS_MAX_BUFFER_SIZE]
      · intro i hi
        show (([] : List Nat) ++ List.replicate (1 - List.length ([] : List Nat)) 0).getD i 0 = 0
        simp only [List.nil_append, List.length_nil]
        exact getD_replicate
      · show unfinished_data _ = unfinished_data _
        simp [unfinished_data]
      · show used_space _ = used_space _
        simp [used_space]
      · show (([] : List Nat) ++ List.replicate (1 - List.length ([] : List Nat)) 0).length =
          max 1 (List.length ([] : List Nat) * 2)
        simp
      · show 0 + (1 - List.length ([] : List Nat)) =
          0 + ((([] : List Nat) ++ List.replicate (1 - List.length ([] : List Nat)) 0).length -
            List.length ([] : List Nat))
        simp
    · rw [if_neg hone] at h
      have hlen1 : 1 ≤ buf.length := by
        rcases Nat.eq_zero_or_pos buf.length with hz | hp
        · rw [hz] at hone
          simp at hone
        · exact hp
      have hmax : max 1 (buf.length * 2) = buf.length * 2 := by omega
      rw [hmax] at h hbig
      have hdiv : buf.length * 2 / 2 = buf.length := by omega
      rw [hdiv, List.take_left] at h
      obtain rfl := (Option.some.inj h).symm
      refine ⟨⟨?_, ?_, ?_⟩, ?_, ?_, ⟨rfl, rfl, rfl, rfl⟩, rfl, ?_, ?_⟩
      · show hd + (buf.length * 2 - buf.length) ≤ (List.replicate buf.length (0 : Nat) ++ buf).length
        simp
        omega
      · show (List.replicate buf.length (0 : Nat) ++ buf).length ≤ FLATBUFFERS_MAX_BUFFER_SIZE
        simp
        omega
      · intro i hi
        show (List.replicate buf.length (0 : Nat) ++ buf).getD i 0 = 0
        have hi2 : i < hd + (buf.length * 2 - buf.length) := hi
        by_cases hc : i < buf.length
        · rw [getD_append_left (by simp; omega), getD_replicate]
        · push_neg at hc
          rw [getD_append_right (by simp; omega)]
          exact hscr _ (by simp; omega)
      · show unfinished_data _ = unfinished_data _
        simp only [unfinished_data]
        have harr : hd + (buf.length * 2 - buf.length) =
            (List.replicate buf.length (0 : Nat)).length + hd := by
          simp
          omega
        rw [harr, List.drop_append]
      · show used_space _ = used_space _
        simp [used_space]
        omega
      · show (List.replicate buf.length (0 : Nat) ++ buf).length = max 1 (buf.length * 2)
        simp
        omega
      · show hd + (buf.length * 2 - buf.length) =
          hd + ((List.replicate buf.length (0 : Nat) ++ buf).length - buf.length)
        simp
        omega

theorem growUntil_spec (fuel : Nat) : ∀ (want : Nat) {b b2 : FlatBufferBuilder}, Good b →
    growUntil fuel want b = some b2 →
    Good b2 ∧ unfinished_data b2 = unfinished_data b ∧ used_space b2 = used_space b ∧
      SameMeta b b2 ∧ b2.min_align = b.min_align ∧ want ≤ b2.head := by
  induction fuel with
  | zero =>
    intro want b b2 hg h
    exact absurd h (by simp [growUntil])
  | succ n ih =>
    intro want b b2 hg h
    rw [growUntil] at h
    by_cases hc : unused_ready_space b < want
    · rw [if_pos hc] at h
      cases hgr : grow_owned_buf b with
      | none =>
        rw [hgr] at h
        exact absurd h (by simp)
      | some bm =>
        rw [hgr] at h
        replace h : growUntil n want bm = some b2 := h
        obtain ⟨hgm, hum, husm, ⟨m1, m2, m3, m4⟩, ham, _, _⟩ := grow_spec hg hgr
        obtain ⟨hg2, hu2, hus2, ⟨n1, n2, n3, n4⟩, ha2, hw2⟩ := ih want hgm h
        exact ⟨hg2, hu2.trans hum, hus2.trans husm,
          ⟨n1.trans m1, n2.trans m2, n3.trans m3, n4.trans m4⟩, ha2.trans ham, hw2⟩
    · rw [if_neg hc] at h
      obtain rfl := (Option.some.inj h).symm
      push_neg at hc
      exact ⟨hg, rfl, rfl, ⟨rfl, rfl, rfl, rfl⟩, rfl, hc⟩

theorem ensure_capacity_spec {want : Nat} {b b2 : FlatBufferBuilder} (hg : Good b)
    (h : ensure_capacity want b = some b2) :
    Good b2 ∧ unfinished_data b2 = unfinished_data b ∧ used_space b2 = used_space b ∧
      SameMeta b b2 ∧ b2.min_align = b.min_align ∧ want ≤ b2.head := by
  unfold ensure_capacity at h
  by_cases h1 : want ≤ unused_ready_space b
  · rw [if_pos h1] at h
    obtain rfl := (Option.some.inj h).symm
    exact ⟨hg, rfl, rfl, ⟨rfl, rfl, rfl, rfl⟩, rfl, h1⟩
  · rw [if_neg h1] at h
    by_cases h2 : FLATBUFFERS_MAX_BUFFER_SIZE < want
    · rw [if_pos h2] at h
      exact absurd h (by simp)
    · rw [if_neg h2] at h
      exact growUntil_spec 64 want hg h

theorem make_space_spec {want : Nat} {b : FlatBufferBuilder} {p : Nat × FlatBufferBuilder}
    (hg : Good b) (h : make_space want b = some p) :
    Good p.2 ∧ p.1 = p.2.head ∧ used_space p.2 = used_space b + want ∧
      unfinished_data p.2 = List.replicate want 0 ++ unfinished_data b ∧
      SameMeta b p.2 ∧ p.2.min_align = b.min_align ∧
      p.2.head + want ≤ p.2.owned_buf.length := by
  unfold make_space at h
  cases hec : ensure_capacity want b with
  | none =>
    rw [hec] at h
    exact absurd h (by simp)
  | some b1 =>
    rw [hec] at h
    replace h : some (b1.head - want, { b1 with head := b1.head - want }) = some p := h
    obtain rfl := (Option.some.inj h)
    obtain ⟨hg1, hu1, hus1, ⟨m1, m2, m3, m4⟩, ha1, hw1⟩ := ensure_capacity_spec hg hec
    have hle1 : b1.head ≤ b1.owned_buf.length := hg1.hle
    refine ⟨⟨?_, hg1.cle, ?_⟩, rfl, ?_, ?_, ⟨m1, m2, m3, m4⟩, ha1, ?_⟩
    · show b1.head - want ≤ b1.owned_buf.length
      omega
    · intro i hi
      have hi2 : i < b1.head - want := hi
      exact hg1.scratch i (by omega)
    · show b1.owned_buf.length - (b1.head - want) = used_space b + want
      have h2 : b1.owned_buf.length - b1.head = b.owned_buf.length - b.head := hus1
      simp only [used_space]
      omega
    · show b1.owned_buf.drop (b1.head - want) = List.replicate want 0 ++ unfinished_data b
      rw [drop_head_sub hw1 hle1 hg1.scratch]
      rw [show b1.owned_buf.drop b1.head = unfinished_data b1 from rfl, hu1]
    · show b1.head - want + want ≤ b1.owned_buf.length
      omega

theorem fill_spec {n : Nat} {b b2 : FlatBufferBuilder} (hg : Good b)
    (h : fill n b = some b2) :
    Good b2 ∧ used_space b2 = used_space b + n ∧
      unfinished_data b2 = List.replicate n 0 ++ unfinished_data b ∧
      SameMeta b b2 ∧ b2.min_align = b.min_align ∧ b2.head + n ≤ b2.owned_buf.length := by
  unfold fill at h
  cases hms : make_space n b with
  | none =>
    rw [hms] at h
    exact absurd h (by simp)
  | some p =>
    rw [hms] at h
    replace h : some p.2 = some b2 := h
    obtain rfl := (Option.some.inj h)
    obtain ⟨a1, _, a3, a4, a5, a6, a7⟩ := make_space_spec hg hms
    exact ⟨a1, a3, a4, a5, a6, a7⟩

theorem align_spec {len alignment : Nat} {b b2 : FlatBufferBuilder} (hg : Good b)
    (h : align len alignment b = some b2) :
    Good b2 ∧
      used_space b2 = used_space b + padding_bytes (used_space b + len) alignment ∧
      unfinished_data b2 =
        List.replicate (padding_bytes (used_space b + len) alignment) 0 ++ unfinished_data b ∧
      SameMeta b b2 ∧ b2.min_align = max b.min_align alignment := by
  unfold align track_min_align at h
  have hg1 : Good { b with min_align := max b.min_align alignment } :=
    ⟨hg.hle, hg.cle, hg.scratch⟩
  obtain ⟨a1, a2, a3, ⟨m1, m2, m3, m4⟩, a5, _⟩ := fill_spec hg1 h
  exact ⟨a1, a2, a3, ⟨m1, m2, m3, m4⟩, a5⟩

theorem push_spec {x : PushVal} {b : FlatBufferBuilder} {p : Nat × FlatBufferBuilder}
    (hb : x.bytes.length = x.size) (hg : Good b) (h : push x b = some p) :
    Good p.2 ∧ p.1 = used_space p.2 ∧
      used_space p.2 =
        used_space b + padding_bytes (used_space b + x.size) x.alignment + x.size ∧
      unfinished_data p.2 =
        x.bytes ++ List.replicate (padding_bytes (used_space b + x.size) x.alignment) 0 ++
          unfinished_data b ∧
      SameMeta b p.2 ∧ p.2.min_align = max b.min_align x.alignment ∧
      (∀ k, k ≤ 32 → x.alignment = 2 ^ k → used_space p.2 % x.alignment = 0) := by
  unfold push at h
  cases hal : align x.size x.alignment b with
  | none =>
    rw [hal] at h
    exact absurd h (by simp)
  | some b1 =>
    rw [hal, Option.some_bind] at h
    cases hms : make_space x.size b1 with
    | none =>
      rw [hms] at h
      exact absurd h (by simp)
    | some q =>
      rw [hms, Option.map_some'] at h
      obtain rfl := (Option.some.inj h).symm
      obtain ⟨hga, hua, husa, ⟨a1, a2, a3, a4⟩, haa⟩ := align_spec hg hal
      obtain ⟨hgm, _, husm, hum, ⟨c1, c2, c3, c4⟩, ham, hwm⟩ := make_space_spec hga hms
      have htake : x.bytes.take x.size = x.bytes := by
        rw [← hb]
        exact List.take_length _
      have hlenw : (writeBytes q.2.owned_buf q.2.head (x.bytes.take x.size)).length =
          q.2.owned_buf.length := length_writeBytes _ _ _
      have hbnd : q.2.head + (x.bytes.take x.size).length ≤ q.2.owned_buf.length := by
        rw [htake, hb]
        exact hwm
      have hused : used_space q.2 =
          used_space b + padding_bytes (used_space b + x.size) x.alignment + x.size := by
        rw [husm, hua]
      have husq : (writeBytes q.2.owned_buf q.2.head (x.bytes.take x.size)).length -
          q.2.head = used_space q.2 := by
        rw [hlenw]
        rfl
      refine ⟨⟨?_, ?_, ?_⟩, rfl, ?_, ?_,
        ⟨c1.trans a1, c2.trans a2, c3.trans a3, c4.trans a4⟩, ham.trans haa, ?_⟩
      · show q.2.head ≤ (writeBytes q.2.owned_buf q.2.head (x.bytes.take x.size)).length
        rw [hlenw]
        exact hgm.hle
      · show (writeBytes q.2.owned_buf q.2.head (x.bytes.take x.size)).length ≤
          FLATBUFFERS_MAX_BUFFER_SIZE
        rw [hlenw]
        exact hgm.cle
      · intro i hi
        have hi2 : i < q.2.head := hi
        show (writeBytes q.2.owned_buf q.2.head (x.bytes.take x.size)).getD i 0 = 0
        rw [getD_writeBytes_lt hi2]
        exact hgm.scratch i hi2
      · show (writeBytes q.2.owned_buf q.2.head (x.bytes.take x.size)).length -
          q.2.head = used_space b + padding_bytes (used_space b + x.size) x.alignment + x.size
        rw [husq, hused]
      · show (writeBytes q.2.owned_buf q.2.head (x.bytes.take x.size)).drop q.2.head =
          x.bytes ++ List.replicate (padding_bytes (used_space b + x.size) x.alignment) 0 ++
            unfinished_data b
        rw [writeBytes_drop hbnd, htake, hb]
        have hdd : q.2.owned_buf.drop (q.2.head + x.size) =
            (q.2.owned_buf.drop q.2.head).drop x.size :=
          (List.drop_drop x.size q.2.head q.2.owned_buf).symm
        rw [hdd, show q.2.owned_buf.drop q.2.head = unfinished_data q.2 from rfl, hum, husa]
        have hdl := List.drop_left (List.replicate x.size (0 : Nat))
          (List.replicate (padding_bytes (used_space b + x.size) x.alignment) (0 : Nat) ++
            unfinished_data b)
        rw [List.length_replicate] at hdl
        rw [hdl, List.append_assoc]
      · intro k hk hx
        show ((writeBytes q.2.owned_buf q.2.head (x.bytes.take x.size)).length -
          q.2.head) % x.alignment = 0
        rw [husq, hused]
        have hsb : used_space b + x.size ≤ 17179869184 := by
          have h1 : used_space b ≤ FLATBUFFERS_MAX_BUFFER_SIZE := by
            have h3 := hg.cle
            simp only [used_space]
            omega
          have h2 : x.size ≤ FLATBUFFERS_MAX_BUFFER_SIZE := by
            have h4 := hgm.cle
            omega
          simp only [FLATBUFFERS_MAX_BUFFER_SIZE] at h1 h2
          omega
        obtain ⟨_, hmod⟩ := padding_bytes_pow2 (used_space b + x.size) k hk hsb
        rw [hx]
        have harr : used_space b + padding_bytes (used_space b + x.size) (2 ^ k) + x.size =
            used_space b + x.size + padding_bytes (used_space b + x.size) (2 ^ k) := by
          omega
        rw [harr]
        exact hmod

theorem good_congr {b b2 : FlatBufferBuilder} (hg : Good b) (h1 : b2.owned_buf = b.owned_buf)
    (h2 : b2.head = b.head) : Good b2 := by
  refine ⟨?_, ?_, ?_⟩
  · rw [h1, h2]
    exact hg.hle
  · rw [h1]
    exact hg.cle
  · intro i hi
    rw [h1]
    exact hg.scratch i (h2 ▸ hi)

theorem good_writeBytes_above {b : FlatBufferBuilder} (hg : Good b) {p : Nat}
    (hp : b.head ≤ p) (bs : List Nat) :
    Good { b with owned_buf := writeBytes b.owned_buf p bs } := by
  refine ⟨?_, ?_, ?_⟩
  · show b.head ≤ (writeBytes b.owned_buf p bs).length
    rw [length_writeBytes]
    exact hg.hle
  · show (writeBytes b.owned_buf p bs).length ≤ FLATBUFFERS_MAX_BUFFER_SIZE
    rw [length_writeBytes]
    exact hg.cle
  · intro i hi
    have hi2 : i < b.head := hi
    show (writeBytes b.owned_buf p bs).getD i 0 = 0
    rw [getD_writeBytes_lt (by omega)]
    exact hg.scratch i hi2

theorem push_good {x : PushVal} {b : FlatBufferBuilder} {p : Nat × FlatBufferBuilder}
    (hg : Good b) (h : push x b = some p) : Good p.2 ∧ SameMeta b p.2 := by
  unfold push at h
  cases hal : align x.size x.alignment b with
  | none =>
    rw [hal] at h
    exact absurd h (by simp)
  | some b1 =>
    rw [hal, Option.some_bind] at h
    cases hms : make_space x.size b1 with
    | none =>
      rw [hms] at h
      exact absurd h (by simp)
    | some q =>
      rw [hms, Option.map_some'] at h
      obtain rfl := (Option.some.inj h).symm
      obtain ⟨hga, _, _, ⟨a1, a2, a3, a4⟩, _⟩ := align_spec hg hal
      obtain ⟨hgm, _, _, _, ⟨c1, c2, c3, c4⟩, _, _⟩ := make_space_spec hga hms
      exact ⟨good_writeBytes_above hgm (Nat.le_refl _) _,
        c1.trans a1, c2.trans a2, c3.trans a3, c4.trans a4⟩

theorem pushWIP_good {v : Nat} {b : FlatBufferBuilder} {p : Nat × FlatBufferBuilder}
    (hg : Good b) (h : pushWIP v b = some p) : Good p.2 ∧ SameMeta b p.2 := by
  unfold pushWIP at h
  cases hal : align SIZE_UOFFSET SIZE_UOFFSET b with
  | none =>
    rw [hal] at h
    exact absurd h (by simp)
  | some b1 =>
    rw [hal, Option.some_bind] at h
    cases hms : make_space SIZE_UOFFSET b1 with
    | none =>
      rw [hms] at h
      exact absurd h (by simp)
    | some q =>
      rw [hms, Option.map_some'] at h
      obtain rfl := (Option.some.inj h).symm
      obtain ⟨hga, _, _, ⟨a1, a2, a3, a4⟩, _⟩ := align_spec hg hal
      obtain ⟨hgm, _, _, _, ⟨c1, c2, c3, c4⟩, _, _⟩ := make_space_spec hga hms
      exact ⟨good_writeBytes_above hgm (Nat.le_refl _) _,
        c1.trans a1, c2.trans a2, c3.trans a3, c4.trans a4⟩

theorem push_bytes_unprefixed_good {x : List Nat} {b : FlatBufferBuilder}
    {p : Nat × FlatBufferBuilder} (hg : Good b) (h : push_bytes_unprefixed x b = some p) :
    Good p.2 ∧ SameMeta b p.2 := by
  unfold push_bytes_unprefixed at h
  cases hms : make_space x.length b with
  | none =>
    rw [hms] at h
    exact absurd h (by simp)
  | some q =>
    rw [hms, Option.map_some'] at h
    obtain rfl := (Option.some.inj h).symm
    obtain ⟨hgm, _, _, _, ⟨c1, c2, c3, c4⟩, _, _⟩ := make_space_spec hg hms
    exact ⟨good_writeBytes_above hgm (Nat.le_refl _) _, c1, c2, c3, c4⟩

theorem reset_buf_zero {b : FlatBufferBuilder} (hg : Good b) :
    (reset b).owned_buf = List.replicate b.owned_buf.length 0 := by
  show writeBytes b.owned_buf b.head (List.replicate (b.owned_buf.length - b.head) 0) =
    List.replicate b.owned_buf.length 0
  apply List.ext_getElem
  · rw [length_writeBytes]
    simp
  · intro i hi1 hi2
    rw [← List.getD_eq_getElem _ 0 hi1, ← List.getD_eq_getElem _ 0 hi2]
    rw [length_writeBytes] at hi1
    have hgr : (List.replicate b.owned_buf.length (0 : Nat)).getD i 0 = 0 := getD_replicate
    rw [hgr]
    by_cases hc : i < b.head
    · rw [getD_writeBytes_lt hc]
      exact hg.scratch i hc
    · push_neg at hc
      have hle := hg.hle
      have hij : i = b.head + (i - b.head) := by omega
      rw [hij, getD_writeBytes_in (by simp; omega) (by simp; omega)]
      exact getD_replicate

theorem reset_good {b : FlatBufferBuilder} (hg : Good b) : Good (reset b) := by
  refine ⟨?_, ?_, ?_⟩
  · show (reset b).head ≤ (reset b).owned_buf.length
    rw [reset_buf_zero hg]
    show b.owned_buf.length ≤ _
    simp
  · show (reset b).owned_buf.length ≤ FLATBUFFERS_MAX_BUFFER_SIZE
    rw [reset_buf_zero hg]
    rw [List.length_replicate]
    exact hg.cle
  · intro i hi
    rw [reset_buf_zero hg]
    exact getD_replicate

theorem wvWriteRegion_good {ovr ttr vtl : Nat} {b2 : FlatBufferBuilder} (hg : Good b2) :
    Good (wvWriteRegion ovr ttr vtl b2) :=
  good_writeBytes_above hg (Nat.le_refl _) _

theorem wvWriteRegion_same (ovr ttr vtl : Nat) (b2 : FlatBufferBuilder) :
    (wvWriteRegion ovr ttr vtl b2).head = b2.head ∧
    (wvWriteRegion ovr ttr vtl b2).owned_buf.length = b2.owned_buf.length ∧
    used_space (wvWriteRegion ovr ttr vtl b2) = used_space b2 ∧
    (wvWriteRegion ovr ttr vtl b2).field_locs = b2.field_locs ∧
    (wvWriteRegion ovr ttr vtl b2).written_vtable_revpos = b2.written_vtable_revpos ∧
    (wvWriteRegion ovr ttr vtl b2).nested = b2.nested ∧
    (wvWriteRegion ovr ttr vtl b2).finished = b2.finished ∧
    (wvWriteRegion ovr ttr vtl b2).min_align = b2.min_align := by
  refine ⟨rfl, ?_, ?_, rfl, rfl, rfl, rfl, rfl⟩
  · show (writeBytes b2.owned_buf b2.head _).length = b2.owned_buf.length
    rw [length_writeBytes]
  · show (writeBytes b2.owned_buf b2.head _).length - b2.head = used_space b2
    rw [length_writeBytes]
    rfl

theorem wvDedup_good {vtl : Nat} {b3 : FlatBufferBuilder} (hg : Good b3)
    (hb : b3.head + vtl ≤ b3.owned_buf.length) :
    Good (wvDedup vtl b3).2 ∧
    (used_space (wvDedup vtl b3).2 = used_space b3 ∨
      used_space (wvDedup vtl b3).2 + vtl = used_space b3) ∧
    (wvDedup vtl b3).2.field_locs = b3.field_locs ∧
    (wvDedup vtl b3).2.written_vtable_revpos = b3.written_vtable_revpos ∧
    (wvDedup vtl b3).2.nested = b3.nested ∧ (wvDedup vtl b3).2.finished = b3.finished := by
  unfold wvDedup
  cases hscan : b3.written_vtable_revpos.reverse.find? fun r =>
      vtEqAt b3.owned_buf b3.head (b3.head + used_space b3 - r) with
  | none =>
    exact ⟨hg, Or.inl rfl, rfl, rfl, rfl, rfl⟩
  | some r =>
    refine ⟨⟨?_, ?_, ?_⟩, Or.inr ?_, rfl, rfl, rfl, rfl⟩
    · show b3.head + vtl ≤ (writeBytes b3.owned_buf b3.head (List.replicate vtl 0)).length
      rw [length_writeBytes]
      exact hb
    · show (writeBytes b3.owned_buf b3.head (List.replicate vtl 0)).length ≤
        FLATBUFFERS_MAX_BUFFER_SIZE
      rw [length_writeBytes]
      exact hg.cle
    · intro i hi
      have hi2 : i < b3.head + vtl := hi
      show (writeBytes b3.owned_buf b3.head (List.replicate vtl 0)).getD i 0 = 0
      by_cases hc : i < b3.head
      · rw [getD_writeBytes_lt hc]
        exact hg.scratch i hc
      · push_neg at hc
        have hij : i = b3.head + (i - b3.head) := by omega
        rw [hij, getD_writeBytes_in (by simp; omega) (by simp; omega)]
        exact getD_replicate
    · show (writeBytes b3.owned_buf b3.head (List.replicate vtl 0)).length -
        (b3.head + vtl) + vtl = used_space b3
      rw [length_writeBytes]
      have := hg.hle
      simp only [used_space]
      omega

theorem wvRecord_good {vb : Nat × FlatBufferBuilder} (hg : Good vb.2) :
    Good (wvRecord vb) ∧ (wvRecord vb).owned_buf = vb.2.owned_buf ∧
    (wvRecord vb).head = vb.2.head ∧ used_space (wvRecord vb) = used_space vb.2 ∧
    (wvRecord vb).field_locs = vb.2.field_locs ∧
    (wvRecord vb).nested = vb.2.nested ∧ (wvRecord vb).finished = vb.2.finished := by
  unfold wvRecord
  by_cases hc : vb.1 = used_space vb.2
  · rw [if_pos hc]
    exact ⟨good_congr hg rfl rfl, rfl, rfl, rfl, rfl, rfl, rfl⟩
  · rw [if_neg hc]
    exact ⟨hg, rfl, rfl, rfl, rfl, rfl, rfl⟩

theorem wvPatch_good {ovr vu : Nat} {b5 : FlatBufferBuilder} (hg : Good b5)
    (ho : ovr ≤ used_space b5) : Good (wvPatch ovr vu b5) := by
  apply good_writeBytes_above hg
  omega

theorem write_vtable_good {t : Nat} {b : FlatBufferBuilder} {pr : Nat × FlatBufferBuilder}
    (hg : Good b) (h : write_vtable t b = some pr) :
    Good pr.2 ∧ pr.2.field_locs = [] ∧ pr.2.nested = b.nested ∧ pr.2.finished = b.finished := by
  unfold write_vtable at h
  cases hp : push (u32P 4042322160) b with
  | none =>
    rw [hp] at h
    exact absurd h (by simp)
  | some p =>
    rw [hp, Option.some_bind] at h
    replace h : Option.map (fun b2 => (p.1, wvFinish p.1 t (vtableLenOf p.2.field_locs) b2))
      (fill (vtableLenOf p.2.field_locs) p.2) = some pr := h
    cases hf : fill (vtableLenOf p.2.field_locs) p.2 with
    | none =>
      rw [hf] at h
      exact absurd h (by simp)
    | some b2 =>
      rw [hf, Option.map_some'] at h
      obtain rfl := (Option.some.inj h).symm
      obtain ⟨hgp, hop, husp, _, ⟨p1, p2, p3, p4⟩, _, _⟩ :=
        push_spec (x := u32P 4042322160) rfl hg hp
      obtain ⟨hg2, hus2, _, ⟨f1, f2, f3, f4⟩, _, hbnd2⟩ := fill_spec hgp hf
      have hg3 := @wvWriteRegion_good p.1 t (vtableLenOf p.2.field_locs) _ hg2
      obtain ⟨ws1, ws2, ws3, ws4, ws5, ws6, ws7, ws8⟩ :=
        wvWriteRegion_same p.1 t (vtableLenOf p.2.field_locs) b2
      have hb3 : (wvWriteRegion p.1 t (vtableLenOf p.2.field_locs) b2).head +
          vtableLenOf p.2.field_locs ≤
          (wvWriteRegion p.1 t (vtableLenOf p.2.field_locs) b2).owned_buf.length := by
        rw [ws1, ws2]
        exact hbnd2
      obtain ⟨hg4, hus4, d1, d2, d3, d4⟩ := wvDedup_good hg3 hb3
      obtain ⟨hg5, r1, r2, r3, r4, r5, r6⟩ := wvRecord_good hg4
      have hou : p.1 ≤ used_space (wvRecord (wvDedup (vtableLenOf p.2.field_locs)
          (wvWriteRegion p.1 t (vtableLenOf p.2.field_locs) b2))) := by
        rw [r3, ← hop] at *
        have hu3 : used_space (wvWriteRegion p.1 t (vtableLenOf p.2.field_locs) b2) =
            used_space b2 := ws3
        rw [hu3, hus2] at hus4
        rcases hus4 with hA | hB
        · omega
        · omega
      have hgP := @wvPatch_good _ ((wvDedup (vtableLenOf p.2.field_locs)
        (wvWriteRegion p.1 t (vtableLenOf p.2.field_locs) b2)).1) _ hg5 hou
      refine ⟨good_congr hgP rfl rfl, rfl, ?_, ?_⟩
      · show (wvRecord _).nested = b.nested
        rw [r5, d3, ws6, f3, p3]
      · show (wvRecord _).finished = b.finished
        rw [r6, d4, ws7, f4, p4]

theorem push_slot_always_good {i : Nat} {x : PushVal} {b b2 : FlatBufferBuilder}
    (hg : Good b) (h : push_slot_always i x b = some b2) :
    Good b2 ∧ b2.nested = b.nested ∧ b2.finished = b.finished := by
  unfold push_slot_always at h
  cases hp : push x b with
  | none =>
    rw [hp] at h
    exact absurd h (by simp)
  | some p =>
    rw [hp, Option.map_some'] at h
    obtain rfl := (Option.some.inj h).symm
    obtain ⟨hgp, _, _, m3, m4⟩ := push_good hg hp
    exact ⟨good_congr hgp rfl rfl, m3, m4⟩

theorem push_slot_good {i : Nat} {x d : PushVal} {b b2 : FlatBufferBuilder}
    (hg : Good b) (h : push_slot i x d b = some b2) :
    Good b2 ∧ b2.nested = b.nested ∧ b2.finished = b.finished := by
  unfold push_slot at h
  by_cases hc : x = d
  · rw [if_pos hc] at h
    obtain rfl := (Option.some.inj h).symm
    exact ⟨hg, rfl, rfl⟩
  · rw [if_neg hc] at h
    exact push_slot_always_good hg h

theorem end_table_good {t : Nat} {b : FlatBufferBuilder} {pr : Nat × FlatBufferBuilder}
    (hg : Good b) (h : end_table t b = some pr) :
    Good pr.2 ∧ pr.2.field_locs = [] ∧ pr.2.nested = false ∧ pr.2.finished = b.finished := by
  unfold end_table at h
  cases hw : write_vtable t b with
  | none =>
    rw [hw] at h
    exact absurd h (by simp)
  | some q =>
    rw [hw, Option.map_some'] at h
    obtain rfl := (Option.some.inj h).symm
    obtain ⟨hgq, _, _, w4⟩ := write_vtable_good hg hw
    exact ⟨good_congr hgq rfl rfl, rfl, rfl, w4⟩

theorem start_vector_good {l e : Nat} {b b2 : FlatBufferBuilder}
    (hg : Good b) (h : start_vector l e b = some b2) :
    Good b2 ∧ b2.finished = b.finished := by
  unfold start_vector at h
  have hg0 : Good { b with nested := true } := good_congr hg rfl rfl
  replace h : (align (l * e) SIZE_UOFFSET { b with nested := true }).bind
    (fun b1 => align (l * e) e b1) = some b2 := h
  cases ha1 : align (l * e) SIZE_UOFFSET { b with nested := true } with
  | none =>
    rw [ha1] at h
    exact absurd h (by simp)
  | some bm =>
    rw [ha1, Option.some_bind] at h
    obtain ⟨hgm, _, _, ⟨_, _, _, m4⟩, _⟩ := align_spec hg0 ha1
    obtain ⟨hg2, _, _, ⟨_, _, _, n4⟩, _⟩ := align_spec hgm h
    exact ⟨hg2, n4.trans m4⟩

theorem end_vector_good {n : Nat} {b : FlatBufferBuilder} {pr : Nat × FlatBufferBuilder}
    (hg : Good b) (h : end_vector n b = some pr) :
    Good pr.2 ∧ pr.2.finished = b.finished := by
  unfold end_vector at h
  obtain ⟨hgp, _, _, _, m4⟩ := push_good (good_congr hg rfl rfl : Good { b with nested := false }) h
  exact ⟨hgp, m4⟩

theorem create_string_good {s : List Nat} {b : FlatBufferBuilder}
    {pr : Nat × FlatBufferBuilder} (hg : Good b) (h : create_string s b = some pr) :
    Good pr.2 ∧ pr.2.nested = b.nested ∧ pr.2.finished = b.finished := by
  unfold create_string at h
  cases hp : push (stringP s) b with
  | none =>
    rw [hp] at h
    exact absurd h (by simp)
  | some p =>
    rw [hp, Option.map_some'] at h
    obtain rfl := (Option.some.inj h).symm
    obtain ⟨hgp, _, _, m3, m4⟩ := push_good hg hp
    exact ⟨hgp, m3, m4⟩

theorem pushAll_good {xs : List PushVal} : ∀ {b b2 : FlatBufferBuilder}, Good b →
    pushAll xs b = some b2 → Good b2 ∧ b2.nested = b.nested ∧ b2.finished = b.finished := by
  induction xs with
  | nil =>
    intro b b2 hg h
    obtain rfl := (Option.some.inj h).symm
    exact ⟨hg, rfl, rfl⟩
  | cons x xs ih =>
    intro b b2 hg h
    rw [pushAll] at h
    cases hp : push x b with
    | none =>
      rw [hp] at h
      exact absurd h (by simp)
    | some p =>
      rw [hp, Option.some_bind] at h
      obtain ⟨hgp, _, _, m3, m4⟩ := push_good hg hp
      obtain ⟨hg2, n3, n4⟩ := ih hgp h
      exact ⟨hg2, n3.trans m3, n4.trans m4⟩

theorem create_vector_good {e : Nat} {xs : List PushVal} {b : FlatBufferBuilder}
    {pr : Nat × FlatBufferBuilder} (hg : Good b) (h : create_vector e xs b = some pr) :
    Good pr.2 ∧ pr.2.finished = b.finished := by
  unfold create_vector at h
  cases hs : start_vector e xs.length b with
  | none =>
    rw [hs] at h
    exact absurd h (by simp)
  | some b1 =>
    rw [hs, Option.some_bind] at h
    cases hpa : pushAll xs.reverse b1 with
    | none =>
      rw [hpa] at h
      exact absurd h (by simp)
    | some bm =>
      rw [hpa, Option.some_bind] at h
      obtain ⟨hg1, s2⟩ := start_vector_good hg hs
      obtain ⟨hgm, _, m2⟩ := pushAll_good hg1 hpa
      obtain ⟨hg2, e2⟩ := end_vector_good hgm h
      exact ⟨hg2, (e2.trans m2).trans s2⟩

theorem finish_with_opts_good {r : Nat} {fi : Option (List Nat)} {sp : Bool}
    {b b2 : FlatBufferBuilder} (hg : Good b) (h : finish_with_opts r fi sp b = some b2) :
    Good b2 := by
  unfold finish_with_opts at h
  have hg0 : Good { b with written_vtable_revpos := ([] : List Nat) } := good_congr hg rfl rfl
  have hstep : ∀ bI : FlatBufferBuilder, Good bI →
      ((pushWIP r bI).bind fun p =>
        (if sp then (push (u32P (used_space p.2)) p.2).map Prod.snd
         else some p.2).map fun (b4 : FlatBufferBuilder) => { b4 with finished := true }) =
        some b2 → Good b2 := by
    intro bI hgI hI
    cases hw : pushWIP r bI with
    | none =>
      rw [hw] at hI
      exact absurd hI (by simp)
    | some pw =>
      rw [hw, Option.some_bind] at hI
      obtain ⟨hgw, _⟩ := pushWIP_good hgI hw
      by_cases hsp : sp = true
      · rw [hsp, if_pos rfl] at hI
        cases hps : push (u32P (used_space pw.2)) pw.2 with
        | none =>
          rw [hps] at hI
          exact absurd hI (by simp)
        | some ps =>
          rw [hps, Option.map_some', Option.map_some'] at hI
          obtain rfl := (Option.some.inj hI).symm
          obtain ⟨hgs, _⟩ := push_good hgw hps
          exact good_congr hgs rfl rfl
      · have hsp2 : sp = false := by
          cases sp
          · rfl
          · exact absurd rfl hsp
        rw [hsp2] at hI
        replace hI : some { pw.2 with finished := true } = some b2 := hI
        obtain rfl := (Option.some.inj hI).symm
        exact good_congr hgw rfl rfl
  cases fi with
  | none =>
    replace h : (align (SIZE_UOFFSET + (if sp then SIZE_UOFFSET else 0) + 0)
        b.min_align { b with written_vtable_revpos := ([] : List Nat) }).bind
        (fun b1 => (pushWIP r b1).bind fun p =>
          (if sp then (push (u32P (used_space p.2)) p.2).map Prod.snd
           else some p.2).map fun (b4 : FlatBufferBuilder) => { b4 with finished := true }) =
        some b2 := h
    cases ha : align (SIZE_UOFFSET + (if sp then SIZE_UOFFSET else 0) + 0)
        b.min_align { b with written_vtable_revpos := ([] : List Nat) } with
    | none =>
      rw [ha] at h
      exact absurd h (by simp)
    | some b1 =>
      rw [ha, Option.some_bind] at h
      obtain ⟨hg1, _, _, _, _⟩ := align_spec hg0 ha
      exact hstep b1 hg1 h
  | some ident =>
    replace h : (align (SIZE_UOFFSET + (if sp then SIZE_UOFFSET else 0) +
        FILE_IDENTIFIER_LENGTH)
        b.min_align { b with written_vtable_revpos := ([] : List Nat) }).bind
        (fun b1 => ((push_bytes_unprefixed ident b1).map Prod.snd).bind fun bA =>
          (pushWIP r bA).bind fun p =>
          (if sp then (push (u32P (used_space p.2)) p.2).map Prod.snd
           else some p.2).map fun (b4 : FlatBufferBuilder) => { b4 with finished := true }) =
        some b2 := h
    cases ha : align (SIZE_UOFFSET + (if sp then SIZE_UOFFSET else 0) +
        FILE_IDENTIFIER_LENGTH)
        b.min_align { b with written_vtable_revpos := ([] : List Nat) } with
    | none =>
      rw [ha] at h
      exact absurd h (by simp)
    | some b1 =>
      rw [ha, Option.some_bind] at h
      obtain ⟨hg1, _, _, _, _⟩ := align_spec hg0 ha
      cases hpb : push_bytes_unprefixed ident b1 with
      | none =>
        rw [hpb] at h
        exact absurd h (by simp)
      | some pb =>
        rw [hpb] at h
        replace h : (pushWIP r pb.2).bind (fun p =>
          (if sp then (push (u32P (used_space p.2)) p.2).map Prod.snd
           else some p.2).map fun (b4 : FlatBufferBuilder) => { b4 with finished := true }) =
          some b2 := h
        obtain ⟨hgb, _⟩ := push_bytes_unprefixed_good hg1 hpb
        exact hstep pb.2 hgb h

theorem reachable_good : ∀ {b : FlatBufferBuilder}, Reachable b → Good b := by
  intro b h
  induction h with
  | new hn =>
    rename_i n bN
    unfold new_with_capacity at hn
    by_cases hc : FLATBUFFERS_MAX_BUFFER_SIZE < n
    · rw [if_pos hc] at hn
      exact absurd hn (by simp)
    · rw [if_neg hc] at hn
      obtain rfl := (Option.some.inj hn).symm
      refine ⟨?_, ?_, ?_⟩
      · show n ≤ (List.replicate n (0 : Nat)).length
        simp
      · show (List.replicate n (0 : Nat)).length ≤ FLATBUFFERS_MAX_BUFFER_SIZE
        simp
        omega
      · intro i hi
        exact getD_replicate
  | reset _ ih => exact reset_good ih
  | push _ hp ih => exact (push_good ih hp).1
  | pushWIP _ hp ih => exact (pushWIP_good ih hp).1
  | push_slot _ hp ih => exact (push_slot_good ih hp).1
  | push_slot_always _ hp ih => exact (push_slot_always_good ih hp).1
  | start_table _ ih => exact good_congr ih rfl rfl
  | end_table _ hp ih => exact (end_table_good ih hp).1
  | start_vector _ hp ih => exact (start_vector_good ih hp).1
  | end_vector _ hp ih => exact (end_vector_good ih hp).1
  | create_string _ hp ih => exact (create_string_good ih hp).1
  | create_vector _ hp ih => exact (create_vector_good ih hp).1
  | finish _ hp ih => exact finish_with_opts_good ih hp

/-- C2: running start_table, end_table, finish_minimal on a fresh builder
produces exactly the twelve finished bytes 08 00 00 00 04 00 04 00 04 00
00 00: root uoffset 8, vtable byte length 4, object inline size 4, and
table soffset 4. -/
theorem c2_empty_table_minimal_finish_bytes :
    ((new_with_capacity 0).bind fun b0 =>
      (end_table (start_table b0).1 (start_table b0).2).bind fun p =>
      (finish_minimal p.1 p.2).map finished_data) =
        some [8, 0, 0, 0, 4, 0, 4, 0, 4, 0, 0, 0] ∧
    readU32 [8, 0, 0, 0, 4, 0, 4, 0, 4, 0, 0, 0] 0 = 8 ∧
    readU16 [8, 0, 0, 0, 4, 0, 4, 0, 4, 0, 0, 0] 4 = 4 ∧
    readU16 [8, 0, 0, 0, 4, 0, 4, 0, 4, 0, 0, 0] 6 = 4 ∧
    readI32 [8, 0, 0, 0, 4, 0, 4, 0, 4, 0, 0, 0] 8 = 4 := by
  refine ⟨?_, ?_, ?_, ?_, ?_⟩ <;> rfl

/-- C4: a push of a value of size s and power-of-two alignment a leaves
used_space divisible by a, puts the little-endian serialization of the
value at buf[head..head+s], and returns the post-push used_space as the
handle. -/
theorem c4_push_alignment_bytes_handle {x : PushVal} {b : FlatBufferBuilder}
    {p : Nat × FlatBufferBuilder} {k : Nat} (hg : Good b) (hb : x.bytes.length = x.size)
    (hk : k ≤ 32) (ha : x.alignment = 2 ^ k) (h : push x b = some p) :
    used_space p.2 % x.alignment = 0 ∧
    readSlice p.2.owned_buf p.2.head x.size = x.bytes ∧
    p.1 = used_space p.2 := by
  obtain ⟨hgp, hh, hus, hunf, _, _, hmod⟩ := push_spec hb hg h
  refine ⟨hmod k hk ha, ?_, hh⟩
  have hrs : readSlice p.2.owned_buf p.2.head x.size = (unfinished_data p.2).take x.size := rfl
  rw [hrs, hunf, List.append_assoc, ← hb, List.take_left]

/-- Witness for C4 at a concrete input: pushing the u16 0x1234 onto a fresh
zero-capacity builder. -/
theorem c4_witness :
    used_space c4Res.2 % (u16P 4660).alignment = 0 ∧
    readSlice c4Res.2.owned_buf c4Res.2.head (u16P 4660).size = (u16P 4660).bytes ∧
    c4Res.1 = used_space c4Res.2 :=
  c4_push_alignment_bytes_handle (b := fbEmpty) (k := 1)
    ⟨by decide, by decide, fun i hi => absurd hi (Nat.not_lt_zero i)⟩
    (by decide) (by decide) (by decide) (by rfl)

/-- C5: grow_owned_buf doubles the capacity (minimum 1), leaves used_space
unchanged, increments head by the growth delta so the live suffix moves
bit-identically to the tail, and changes neither field_locs nor the bytes
any tail-relative handle refers to. -/
theorem c5_grow_owned_buf_preserves {b b2 : FlatBufferBuilder} (hg : Good b)
    (h : grow_owned_buf b = some b2) :
    b2.owned_buf.length = max 1 (b.owned_buf.length * 2) ∧
    used_space b2 = used_space b ∧
    b2.head = b.head + (b2.owned_buf.length - b.owned_buf.length) ∧
    unfinished_data b2 = unfinished_data b ∧
    b2.field_locs = b.field_locs ∧
    (∀ off bs, hasBytesAt b off bs → hasBytesAt b2 off bs) := by
  obtain ⟨_, hu, hus, ⟨m1, _, _, _⟩, _, hlen, hhead⟩ := grow_spec hg h
  refine ⟨hlen, hus, hhead, hu, m1, ?_⟩
  intro off bs hbs
  refine hasBytesAt_extend (t := []) hbs ?_
  rw [hu]
  exact (List.nil_append _).symm

/-- Witness for C5 at a concrete input: growing a full one-byte arena. -/
theorem c5_witness :
    used_space fbGrown = used_space fbOne ∧
    unfinished_data fbGrown = unfinished_data fbOne ∧
    hasBytesAt fbGrown 1 [7] := by
  have hgood : Good fbOne :=
    ⟨by decide, by decide, fun i hi => absurd hi (Nat.not_lt_zero i)⟩
  obtain ⟨_, hus, _, hunf, _, hhas⟩ :=
    c5_grow_owned_buf_preserves hgood (by rfl : grow_owned_buf fbOne = some fbGrown)
  exact ⟨hus, hunf, hhas 1 [7] (⟨by decide, by decide, by decide⟩ : hasBytesAt fbOne 1 [7])⟩

/-- C6: the claim that min_align is always a power of two equal to the
maximum alignment ever requested fails on the code: create_vector passes
its arguments to start_vector swapped, so five one-byte elements request
alignment 5 and leave min_align = 5, which no power of two equals. -/
theorem c6_create_vector_min_align_not_pow2 :
    ((new_with_capacity 0).bind fun b0 =>
      (create_vector 1 (List.replicate 5 (u8P 1)) b0).map fun p => p.2.min_align) =
        some 5 ∧
    ∀ k : Nat, 2 ^ k ≠ 5 := by
  constructor
  · rfl
  · intro k hEq
    rcases k with _ | k2
    · exact absurd hEq (by decide)
    · have h2 : (2 : Nat) ∣ 5 := by
        rw [← hEq]
        exact ⟨2 ^ k2, by ring⟩
      omega

/-- C7: the claim that used_space is divisible by min_align after finish
fails on the code through the same create_vector argument swap: after a
five-element u8 vector and finish_minimal, used_space is 16 while
min_align is 5, and 16 mod 5 is 1. -/
theorem c7_finish_misaligned_eval :
    ((new_with_capacity 0).bind fun b0 =>
      (create_vector 1 (List.replicate 5 (u8P 1)) b0).bind fun p =>
      (finish_minimal p.1 p.2).map fun bf =>
        (used_space bf, bf.min_align, used_space bf % bf.min_align)) =
      some (16, 5, 1) ∧ (16 : Nat) % 5 ≠ 0 := by
  exact ⟨by rfl, by decide⟩

/-- C8: after reset, every observation the claim lists matches a freshly
constructed builder of the same capacity: no written vtables, empty
unfinished data, cleared nested and finished flags, min_align 0, and an
all-zero backing buffer; indeed the reset builder differs from
new_with_capacity of its capacity at most in the untouched field_locs. -/
theorem c8_reset_observationally_fresh {b : FlatBufferBuilder} (hr : Reachable b) :
    num_written_vtables (reset b) = 0 ∧
    unfinished_data (reset b) = [] ∧
    (reset b).nested = false ∧
    (reset b).finished = false ∧
    (reset b).min_align = 0 ∧
    (reset b).owned_buf = List.replicate b.owned_buf.length 0 ∧
    new_with_capacity b.owned_buf.length = some { reset b with field_locs := [] } := by
  have hg : Good b := reachable_good hr
  have hz := reset_buf_zero hg
  refine ⟨rfl, ?_, rfl, rfl, rfl, hz, ?_⟩
  · show (reset b).owned_buf.drop b.owned_buf.length = []
    rw [hz]
    simp
  · unfold new_with_capacity
    rw [if_neg (not_lt.mpr hg.cle)]
    rw [← hz]
    rfl

/-- Witness for C8 at a concrete input: resetting a fresh capacity-4
builder. -/
theorem c8_witness :
    num_written_vtables (reset fbCap4) = 0 ∧
    unfinished_data (reset fbCap4) = [] ∧
    (reset fbCap4).nested = false ∧
    (reset fbCap4).finished = false ∧
    (reset fbCap4).min_align = 0 ∧
    (reset fbCap4).owned_buf = List.replicate fbCap4.owned_buf.length 0 ∧
    new_with_capacity fbCap4.owned_buf.length = some { reset fbCap4 with field_locs := [] } :=
  c8_reset_observationally_fresh (Reachable.new (by rfl : new_with_capacity 4 = some fbCap4))

/-- C9: between public operations the scratch region buf[0..head] is
entirely zero, the invariant the dedup zeroing, the growth zeroing, and
the zero-byte padding maintain and that reset silently depends on. -/
theorem c9_scratch_region_all_zero {b : FlatBufferBuilder} (hr : Reachable b) :
    ∀ i, i < b.head → b.owned_buf.getD i 0 = 0 :=
  fun i hi => (reachable_good hr).scratch i hi

/-- Witness for C9 at a concrete input: a fresh capacity-4 builder, whose
scratch region is the whole buffer. -/
theorem c9_witness : fbCap4.owned_buf.getD 2 0 = 0 :=
  c9_scratch_region_all_zero (Reachable.new (by rfl : new_with_capacity 4 = some fbCap4))
    2 (by decide)

/-- C10: every growth step from a capacity above floor((2^31 - 1)/2) =
1073741823 fails the assertion in grow_owned_buf, so a space request
strictly below the 2 GiB limit can still abort: ensure_capacity of
2^30 + 1 bytes on a full capacity-2^30 builder dies in its first doubling. -/
theorem c10_growth_cap_aborts :
    (∀ b : FlatBufferBuilder, 1073741823 < b.owned_buf.length → grow_owned_buf b = none) ∧
    2 ^ 30 + 1 < FLATBUFFERS_MAX_BUFFER_SIZE ∧
    ensure_capacity (2 ^ 30 + 1) bigBuilder = none := by
  refine ⟨?_, by norm_num [FLATBUFFERS_MAX_BUFFER_SIZE], ?_⟩
  · intro b hb
    unfold grow_owned_buf
    rw [if_pos]
    simp only [FLATBUFFERS_MAX_BUFFER_SIZE]
    omega
  · have hhead : unused_ready_space bigBuilder = 1073741824 := rfl
    have hlen : bigBuilder.owned_buf.length = 1073741824 := by
      rw [show bigBuilder.owned_buf = List.replicate 1073741824 0 from rfl,
        List.length_replicate]
    unfold ensure_capacity
    rw [if_neg (by rw [hhead]; norm_num), if_neg (by norm_num [FLATBUFFERS_MAX_BUFFER_SIZE])]
    rw [growUntil, if_pos (by rw [hhead]; norm_num)]
    have hgnone : grow_owned_buf bigBuilder = none := by
      unfold grow_owned_buf
      rw [if_pos]
      rw [hlen]
      norm_num [FLATBUFFERS_MAX_BUFFER_SIZE]
    rw [hgnone]
    rfl

/-- Witness for C10 at a concrete input: the capacity-2^30 builder itself. -/
theorem max?_ge_of_mem {xs : List Nat} {a m : Nat} (ha : a ∈ xs) (h : xs.max? = some m) :
    a ≤ m :=
  (List.max?_le_iff (fun a b c => max_le_iff) h).mp (Nat.le_refl m) a ha

theorem vtableLenOf_ge4 {fl : List FieldLoc} (h4 : ∀ l ∈ fl, 4 ≤ l.id) :
    4 ≤ vtableLenOf fl := by
  unfold vtableLenOf
  cases hm : (fl.map FieldLoc.id).max? with
  | none => simp [field_index_to_field_offset]
  | some mv =>
    have hmem := List.max?_mem (fun a b => max_choice a b) hm
    obtain ⟨l, hl, hid⟩ := List.mem_map.mp hmem
    have := h4 l hl
    simp [SIZE_VOFFSET]
    omega

theorem vtableLenOf_le {fl : List FieldLoc} {m : Nat} (hm2 : 2 ≤ m)
    (h : ∀ l ∈ fl, l.id ≤ m) : vtableLenOf fl ≤ m + 2 := by
  unfold vtableLenOf
  cases hmax : (fl.map FieldLoc.id).max? with
  | none =>
    simp [field_index_to_field_offset]
    omega
  | some mv =>
    have hmem := List.max?_mem (fun a b => max_choice a b) hmax
    obtain ⟨l, hl, hid⟩ := List.mem_map.mp hmem
    have := h l hl
    simp [SIZE_VOFFSET]
    omega

theorem id_add_two_le_vtableLenOf {fl : List FieldLoc} {l : FieldLoc} (hl : l ∈ fl) :
    l.id + 2 ≤ vtableLenOf fl := by
  unfold vtableLenOf
  cases hmax : (fl.map FieldLoc.id).max? with
  | none =>
    rcases fl with _ | ⟨a, fl2⟩
    · exact absurd hl (by simp)
    · rw [List.map_cons, List.max?_cons] at hmax
      exact absurd hmax (by simp)
  | some mv =>
    have hle := max?_ge_of_mem (List.mem_map_of_mem FieldLoc.id hl) hmax
    simp [SIZE_VOFFSET]
    omega

theorem length_foldl_slots (fl : List FieldLoc) (ovr : Nat) : ∀ (init : List Nat),
    (fl.foldl (fun r l => writeBytes r l.id (leBytes 2 ((ovr - l.off) % 65536))) init).length =
      init.length := by
  induction fl with
  | nil => intro init; rfl
  | cons a fl2 ih =>
    intro init
    rw [List.foldl_cons, ih, length_writeBytes]

theorem length_synthVT (fl : List FieldLoc) (ovr os : Nat) :
    (synthVT fl ovr os).length = vtableLenOf fl := by
  unfold synthVT
  rw [length_foldl_slots, length_writeBytes, length_writeBytes, List.length_replicate]

theorem readSlice_foldl_slots_disjoint (fl : List FieldLoc) (ovr : Nat) :
    ∀ (init : List Nat) (p n : Nat), (∀ l ∈ fl, l.id + 2 ≤ p ∨ p + n ≤ l.id) →
    p + n ≤ init.length →
    readSlice (fl.foldl (fun r l => writeBytes r l.id (leBytes 2 ((ovr - l.off) % 65536))) init)
      p n = readSlice init p n := by
  induction fl with
  | nil => intro init p n _ _; rfl
  | cons a fl2 ih =>
    intro init p n hd hb
    rw [List.foldl_cons, ih _ p n (fun l hl => hd l (List.mem_cons_of_mem a hl))
      (by rw [length_writeBytes]; exact hb)]
    rcases hd a (List.mem_cons_self a fl2) with hlt | hgt
    · exact readSlice_writeBytes_after (by rw [length_leBytes]; omega) hb
    · exact readSlice_writeBytes_before (by omega) hb

theorem readSlice_foldl_slots_mem (fl : List FieldLoc) (ovr : Nat) :
    ∀ (init : List Nat), (fl.map FieldLoc.id).Pairwise (· ≠ ·) →
    (∀ l ∈ fl, l.id % 2 = 0) → (∀ l ∈ fl, l.id + 2 ≤ init.length) →
    ∀ l ∈ fl,
      readSlice (fl.foldl (fun r l2 => writeBytes r l2.id (leBytes 2 ((ovr - l2.off) % 65536)))
        init) l.id 2 = leBytes 2 ((ovr - l.off) % 65536) := by
  induction fl with
  | nil => intro init _ _ _ l hl; exact absurd hl (by simp)
  | cons a fl2 ih =>
    intro init hdist heven hbnd l hl
    rw [List.foldl_cons]
    rcases List.mem_cons.mp hl with rfl | hl2
    · have hdisj : ∀ l2 ∈ fl2, l2.id + 2 ≤ l.id ∨ l.id + 2 ≤ l2.id := by
        intro l2 hl2
        have hne : l.id ≠ l2.id := by
          have := (List.pairwise_cons.mp hdist).1 l2.id (List.mem_map_of_mem FieldLoc.id hl2)
          exact this
        have he1 : l.id % 2 = 0 := heven l (List.mem_cons_self _ _)
        have he2 : l2.id % 2 = 0 := heven l2 (List.mem_cons_of_mem _ hl2)
        omega
      rw [readSlice_foldl_slots_disjoint fl2 ovr _ l.id 2 hdisj
        (by rw [length_writeBytes]; exact hbnd l (List.mem_cons_self _ _))]
      have hself := @readSlice_writeBytes_self
        (leBytes 2 ((ovr - l.off) % 65536)) init l.id
        (by rw [length_leBytes]; exact hbnd l (List.mem_cons_self _ _))
      rw [length_leBytes] at hself
      exact hself
    · exact ih _ (List.pairwise_cons.mp hdist).2
        (fun l2 h2 => heven l2 (List.mem_cons_of_mem a h2))
        (fun l2 h2 => by rw [length_writeBytes]; exact hbnd l2 (List.mem_cons_of_mem a h2))
        l hl2

theorem readSlice_synthVT_slot {fl : List FieldLoc} {ovr os : Nat}
    (hdist : (fl.map FieldLoc.id).Pairwise (· ≠ ·)) (heven : ∀ l ∈ fl, l.id % 2 = 0)
    {l : FieldLoc} (hl : l ∈ fl) :
    readSlice (synthVT fl ovr os) l.id 2 = leBytes 2 ((ovr - l.off) % 65536) := by
  unfold synthVT
  exact readSlice_foldl_slots_mem fl ovr _ hdist heven
    (fun l2 h2 => by
      rw [length_writeBytes, length_writeBytes, List.length_replicate]
      exact id_add_two_le_vtableLenOf h2) l hl

theorem readSlice_synthVT_len {fl : List FieldLoc} {ovr os : Nat}
    (h4 : ∀ l ∈ fl, 4 ≤ l.id) :
    readSlice (synthVT fl ovr os) 0 2 = leBytes 2 (vtableLenOf fl % 65536) := by
  unfold synthVT
  have hvtl : 4 ≤ vtableLenOf fl := vtableLenOf_ge4 h4
  rw [readSlice_foldl_slots_disjoint fl ovr _ 0 2
    (fun l hl => Or.inr (by have := h4 l hl; omega))
    (by rw [length_writeBytes, length_writeBytes, List.length_replicate]; omega)]
  rw [readSlice_writeBytes_before (by omega)
    (by rw [length_writeBytes, List.length_replicate]; omega)]
  have hself := @readSlice_writeBytes_self (leBytes 2 (vtableLenOf fl % 65536))
    (List.replicate (vtableLenOf fl) 0) 0
    (by rw [length_leBytes, List.length_replicate]; omega)
  rw [length_leBytes] at hself
  exact hself

theorem encodeI32_ofNat {n : Nat} (h : n < 4294967296) : encodeI32 (n : Int) = leBytes 4 n := by
  unfold encodeI32
  congr 1
  rw [show (n : Int).emod 4294967296 = (n : Int) % 4294967296 from rfl]
  omega

theorem length_encodeI32 (x : Int) : (encodeI32 x).length = 4 := length_leBytes _ _

theorem readI32_encode {x : Int} (h1 : -2147483648 ≤ x) (h2 : x < 2147483648)
    {buf : List Nat} {p : Nat} (hs : readSlice buf p 4 = encodeI32 x) :
    readI32 buf p = x := by
  have hcv : x.emod 4294967296 = x % 4294967296 := rfl
  have h0 : 0 ≤ x.emod 4294967296 := Int.emod_nonneg x (by norm_num)
  have hlt : x.emod 4294967296 < 4294967296 := Int.emod_lt_of_pos x (by norm_num)
  rw [hcv] at h0 hlt
  have hn : readU32 buf p = (x.emod 4294967296).toNat := by
    unfold readU32
    rw [hs]
    unfold encodeI32
    rw [leVal_leBytes]
    apply Nat.mod_eq_of_lt
    have : (256 : Nat) ^ 4 = 4294967296 := by norm_num
    omega
  unfold readI32
  rw [hn]
  show (if (x.emod 4294967296).toNat < 2147483648 then (((x.emod 4294967296).toNat : Nat) : Int)
    else (((x.emod 4294967296).toNat : Nat) : Int) - 4294967296) = x
  rw [hcv]
  by_cases hc : (x % 4294967296).toNat < 2147483648
  · rw [if_pos hc]
    omega
  · rw [if_neg hc]
    omega

theorem readSlice_head_shift (b : FlatBufferBuilder) (x n : Nat) :
    readSlice b.owned_buf (b.head + x) n = readSlice (unfinished_data b) x n := by
  show (b.owned_buf.drop (b.head + x)).take n = ((b.owned_buf.drop b.head).drop x).take n
  rw [List.drop_drop]

theorem abs_of_tail {b : FlatBufferBuilder} {off : Nat} (hh : b.head ≤ b.owned_buf.length)
    (hoff : off ≤ used_space b) :
    b.owned_buf.length - off = b.head + (used_space b - off) := by
  simp only [used_space] at hoff ⊢
  omega

theorem wv_pre_spec {t : Nat} {b : FlatBufferBuilder} {p : Nat × FlatBufferBuilder}
    {b2 : FlatBufferBuilder} (hg : Good b) (hp : push (u32P 4042322160) b = some p)
    (hf : fill (vtableLenOf p.2.field_locs) p.2 = some b2) :
    p.2.field_locs = b.field_locs ∧
    p.1 = used_space b + padding_bytes (used_space b + 4) 4 + 4 ∧
    Good (wvWriteRegion p.1 t (vtableLenOf p.2.field_locs) b2) ∧
    unfinished_data (wvWriteRegion p.1 t (vtableLenOf p.2.field_locs) b2) =
      synthVT b.field_locs p.1 (p.1 - t) ++
        (leBytes 4 4042322160 ++
          (List.replicate (padding_bytes (used_space b + 4) 4) 0 ++ unfinished_data b)) ∧
    used_space (wvWriteRegion p.1 t (vtableLenOf p.2.field_locs) b2) =
      p.1 + vtableLenOf b.field_locs ∧
    (wvWriteRegion p.1 t (vtableLenOf p.2.field_locs) b2).head + vtableLenOf b.field_locs ≤
      (wvWriteRegion p.1 t (vtableLenOf p.2.field_locs) b2).owned_buf.length ∧
    (wvWriteRegion p.1 t (vtableLenOf p.2.field_locs) b2).written_vtable_revpos =
      b.written_vtable_revpos ∧
    (wvWriteRegion p.1 t (vtableLenOf p.2.field_locs) b2).field_locs = b.field_locs ∧
    (wvWriteRegion p.1 t (vtableLenOf p.2.field_locs) b2).nested = b.nested ∧
    (wvWriteRegion p.1 t (vtableLenOf p.2.field_locs) b2).finished = b.finished := by
  obtain ⟨hgp, hop, husp, hunfp, ⟨p1, p2, p3, p4⟩, _, _⟩ :=
    push_spec (x := u32P 4042322160) rfl hg hp
  obtain ⟨hg2, hus2, hunf2, ⟨f1, f2, f3, f4⟩, _, hbnd2⟩ := fill_spec hgp hf
  have hfl2 : b2.field_locs = b.field_locs := f1.trans p1
  have hvteq : vtableLenOf p.2.field_locs = vtableLenOf b.field_locs := by rw [p1]
  have hvteq2 : vtableLenOf b2.field_locs = vtableLenOf b.field_locs := by rw [hfl2]
  obtain ⟨ws1, ws2, ws3, ws4, ws5, ws6, ws7, ws8⟩ :=
    wvWriteRegion_same p.1 t (vtableLenOf p.2.field_locs) b2
  have hregion0 : readSlice b2.owned_buf b2.head (vtableLenOf p.2.field_locs) =
      List.replicate (vtableLenOf p.2.field_locs) 0 := by
    show (b2.owned_buf.drop b2.head).take (vtableLenOf p.2.field_locs) = _
    rw [show b2.owned_buf.drop b2.head = unfinished_data b2 from rfl, hunf2]
    have ht := List.take_left (List.replicate (vtableLenOf p.2.field_locs) (0 : Nat))
      (unfinished_data p.2)
    rw [List.length_replicate] at ht
    exact ht
  have hbuf : (wvWriteRegion p.1 t (vtableLenOf p.2.field_locs) b2).owned_buf =
      writeBytes b2.owned_buf b2.head (synthVT b2.field_locs p.1 (p.1 - t)) := by
    show writeBytes b2.owned_buf b2.head
      (b2.field_locs.foldl
        (fun r fl => writeBytes r fl.id (leBytes 2 ((p.1 - fl.off) % 65536)))
        (writeBytes
          (writeBytes (readSlice b2.owned_buf b2.head (vtableLenOf p.2.field_locs)) 0
            (leBytes 2 (vtableLenOf p.2.field_locs % 65536))) 2
          (leBytes 2 ((p.1 - t) % 65536)))) = _
    rw [hregion0]
    unfold synthVT
    rw [show vtableLenOf p.2.field_locs = vtableLenOf b2.field_locs from by rw [f1]]
  have hSlen : (synthVT b2.field_locs p.1 (p.1 - t)).length = vtableLenOf p.2.field_locs := by
    rw [length_synthVT, hvteq2, hvteq]
  have hunfB3 : unfinished_data (wvWriteRegion p.1 t (vtableLenOf p.2.field_locs) b2) =
      synthVT b.field_locs p.1 (p.1 - t) ++
        (leBytes 4 4042322160 ++
          (List.replicate (padding_bytes (used_space b + 4) 4) 0 ++ unfinished_data b)) := by
    show (wvWriteRegion p.1 t (vtableLenOf p.2.field_locs) b2).owned_buf.drop
      (wvWriteRegion p.1 t (vtableLenOf p.2.field_locs) b2).head = _
    rw [ws1, hbuf, writeBytes_drop (by rw [hSlen]; exact hbnd2)]
    rw [hSlen]
    have hdd : b2.owned_buf.drop (b2.head + vtableLenOf p.2.field_locs) =
        (b2.owned_buf.drop b2.head).drop (vtableLenOf p.2.field_locs) :=
      (List.drop_drop _ _ _).symm
    rw [hdd, show b2.owned_buf.drop b2.head = unfinished_data b2 from rfl, hunf2]
    have hdl := List.drop_left (List.replicate (vtableLenOf p.2.field_locs) (0 : Nat))
      (unfinished_data p.2)
    rw [List.length_replicate] at hdl
    rw [hdl, hunfp, hfl2]
    have hbytes : (u32P 4042322160).bytes = leBytes 4 4042322160 := rfl
    rw [hbytes]
    have hsz : (u32P 4042322160).size = 4 := rfl
    have hal : (u32P 4042322160).alignment = 4 := rfl
    rw [hsz, hal]
    simp [List.append_assoc]
  refine ⟨p1, ?_, wvWriteRegion_good hg2, hunfB3, ?_, ?_, ?_, ?_, ?_, ?_⟩
  · rw [hop, husp]
    rfl
  · rw [ws3, hus2, husp, ← hvteq, hop, husp]
  · rw [ws1, ws2, ← hvteq]
    exact hbnd2
  · rw [ws5, f2, p2]
  · rw [ws4, hfl2]
  · rw [ws6, f3, p3]
  · rw [ws7, f4, p4]

theorem used_wvPatch (ovr vu : Nat) (b5 : FlatBufferBuilder) :
    used_space (wvPatch ovr vu b5) = used_space b5 := by
  show (writeBytes b5.owned_buf (b5.head + used_space b5 - ovr)
    (encodeI32 ((vu : Int) - (ovr : Int)))).length - b5.head = _
  rw [length_writeBytes]
  rfl

theorem unfin_wvPatch {ovr : Nat} (vu : Nat) {b5 : FlatBufferBuilder}
    (ho : ovr ≤ used_space b5) :
    unfinished_data (wvPatch ovr vu b5) =
      writeBytes (unfinished_data b5) (used_space b5 - ovr)
        (encodeI32 ((vu : Int) - (ovr : Int))) := by
  show (writeBytes b5.owned_buf (b5.head + used_space b5 - ovr)
    (encodeI32 ((vu : Int) - (ovr : Int)))).drop b5.head = _
  have hidx : b5.head + used_space b5 - ovr = b5.head + (used_space b5 - ovr) := by omega
  rw [hidx, drop_writeBytes_shift (Nat.le_add_right _ _), Nat.add_sub_cancel_left]
  rfl

theorem end_table_fresh_spec {t : Nat} {bM : FlatBufferBuilder} {prF : Nat × FlatBufferBuilder}
    (hg : Good bM) (hw : bM.written_vtable_revpos = [])
    (hvtl32 : vtableLenOf bM.field_locs < 2147483648)
    (h : end_table t bM = some prF) :
    prF.1 = used_space bM + padding_bytes (used_space bM + 4) 4 + 4 ∧
    used_space prF.2 = prF.1 + vtableLenOf bM.field_locs ∧
    Good prF.2 ∧ prF.2.nested = false ∧ prF.2.field_locs = [] ∧
    prF.2.finished = bM.finished ∧
    prF.2.written_vtable_revpos = [prF.1 + vtableLenOf bM.field_locs] ∧
    unfinished_data prF.2 =
      synthVT bM.field_locs prF.1 (prF.1 - t) ++
        (leBytes 4 (vtableLenOf bM.field_locs) ++
          (List.replicate (padding_bytes (used_space bM + 4) 4) 0 ++ unfinished_data bM)) := by
  unfold end_table at h
  cases hwv : write_vtable t bM with
  | none =>
    rw [hwv] at h
    exact absurd h (by simp)
  | some q =>
    rw [hwv, Option.map_some'] at h
    obtain rfl := (Option.some.inj h).symm
    obtain ⟨hgq, _, _, hqf⟩ := write_vtable_good hg hwv
    unfold write_vtable at hwv
    cases hp : push (u32P 4042322160) bM with
    | none =>
      rw [hp] at hwv
      exact absurd hwv (by simp)
    | some p =>
      rw [hp, Option.some_bind] at hwv
      replace hwv : Option.map
        (fun b2 => (p.1, wvFinish p.1 t (vtableLenOf p.2.field_locs) b2))
        (fill (vtableLenOf p.2.field_locs) p.2) = some q := hwv
      cases hf : fill (vtableLenOf p.2.field_locs) p.2 with
      | none =>
        rw [hf] at hwv
        exact absurd hwv (by simp)
      | some b2 =>
        rw [hf, Option.map_some'] at hwv
        obtain rfl := (Option.some.inj hwv)
        obtain ⟨pr1, pr2, pr3, pr4, pr5, pr6, pr7, pr8, pr9, pr10⟩ :=
          wv_pre_spec (t := t) hg hp hf
        have hvteq : vtableLenOf p.2.field_locs = vtableLenOf bM.field_locs := by rw [pr1]
        have hwB3 : (wvWriteRegion p.1 t (vtableLenOf p.2.field_locs) b2).written_vtable_revpos =
            [] := pr7.trans hw
        have hded : wvDedup (vtableLenOf p.2.field_locs)
            (wvWriteRegion p.1 t (vtableLenOf p.2.field_locs) b2) =
            (used_space (wvWriteRegion p.1 t (vtableLenOf p.2.field_locs) b2),
              wvWriteRegion p.1 t (vtableLenOf p.2.field_locs) b2) := by
          unfold wvDedup
          rw [hwB3]
          rfl
        have hrec : wvRecord (used_space (wvWriteRegion p.1 t (vtableLenOf p.2.field_locs) b2),
            wvWriteRegion p.1 t (vtableLenOf p.2.field_locs) b2) =
            { wvWriteRegion p.1 t (vtableLenOf p.2.field_locs) b2 with
              written_vtable_revpos :=
                (wvWriteRegion p.1 t (vtableLenOf p.2.field_locs) b2).written_vtable_revpos ++
                  [used_space (wvWriteRegion p.1 t (vtableLenOf p.2.field_locs) b2)] } := by
          unfold wvRecord
          rw [if_pos rfl]
        have hq2 : wvFinish p.1 t (vtableLenOf p.2.field_locs) b2 =
            { wvPatch p.1 (used_space (wvWriteRegion p.1 t (vtableLenOf p.2.field_locs) b2))
              { wvWriteRegion p.1 t (vtableLenOf p.2.field_locs) b2 with
                written_vtable_revpos := [] ++
                  [used_space (wvWriteRegion p.1 t (vtableLenOf p.2.field_locs) b2)] } with
              field_locs := [] } := by
          unfold wvFinish
          rw [hded, hrec, hwB3]
        have hUval : used_space (wvWriteRegion p.1 t (vtableLenOf p.2.field_locs) b2) =
            p.1 + vtableLenOf bM.field_locs := pr5
        have hB5u : used_space
            { wvWriteRegion p.1 t (vtableLenOf p.2.field_locs) b2 with
              written_vtable_revpos := [] ++
                [used_space (wvWriteRegion p.1 t (vtableLenOf p.2.field_locs) b2)] } =
            p.1 + vtableLenOf bM.field_locs := hUval
        have hused_fin : used_space (wvFinish p.1 t (vtableLenOf p.2.field_locs) b2) =
            p.1 + vtableLenOf bM.field_locs := by
          rw [hq2]
          have hup := used_wvPatch p.1
            (used_space (wvWriteRegion p.1 t (vtableLenOf p.2.field_locs) b2))
            { wvWriteRegion p.1 t (vtableLenOf p.2.field_locs) b2 with
              written_vtable_revpos := [] ++
                [used_space (wvWriteRegion p.1 t (vtableLenOf p.2.field_locs) b2)] }
          exact hup.trans hB5u
        have hwfin : (wvFinish p.1 t (vtableLenOf p.2.field_locs) b2).written_vtable_revpos =
            [p.1 + vtableLenOf bM.field_locs] := by
          rw [hq2]
          show [] ++ [used_space (wvWriteRegion p.1 t (vtableLenOf p.2.field_locs) b2)] = _
          rw [List.nil_append, hUval]
        have hunfin : unfinished_data (wvFinish p.1 t (vtableLenOf p.2.field_locs) b2) =
            synthVT bM.field_locs p.1 (p.1 - t) ++
              (leBytes 4 (vtableLenOf bM.field_locs) ++
                (List.replicate (padding_bytes (used_space bM + 4) 4) 0 ++
                  unfinished_data bM)) := by
          rw [hq2]
          have hfl0 : unfinished_data
              ({ wvPatch p.1 (used_space (wvWriteRegion p.1 t (vtableLenOf p.2.field_locs) b2))
                { wvWriteRegion p.1 t (vtableLenOf p.2.field_locs) b2 with
                  written_vtable_revpos := [] ++
                    [used_space (wvWriteRegion p.1 t (vtableLenOf p.2.field_locs) b2)] } with
                field_locs := ([] : List FieldLoc) }) =
              unfinished_data
              (wvPatch p.1 (used_space (wvWriteRegion p.1 t (vtableLenOf p.2.field_locs) b2))
                { wvWriteRegion p.1 t (vtableLenOf p.2.field_locs) b2 with
                  written_vtable_revpos := [] ++
                    [used_space (wvWriteRegion p.1 t (vtableLenOf p.2.field_locs) b2)] }) := rfl
          rw [hfl0, unfin_wvPatch _ (by rw [hB5u]; omega)]
          have hB5unf : unfinished_data
              { wvWriteRegion p.1 t (vtableLenOf p.2.field_locs) b2 with
                written_vtable_revpos := [] ++
                  [used_space (wvWriteRegion p.1 t (vtableLenOf p.2.field_locs) b2)] } =
              unfinished_data (wvWriteRegion p.1 t (vtableLenOf p.2.field_locs) b2) := rfl
          rw [hB5unf, hB5u, pr4]
          have hsub : p.1 + vtableLenOf bM.field_locs - p.1 = vtableLenOf bM.field_locs := by
            omega
          rw [hsub]
          have hcast : ((used_space (wvWriteRegion p.1 t (vtableLenOf p.2.field_locs) b2) :
              Int) - (p.1 : Int)) = (vtableLenOf bM.field_locs : Int) := by
            rw [hUval]
            push_cast
            ring
          rw [hcast, encodeI32_ofNat (by omega)]
          have hSlen : (synthVT bM.field_locs p.1 (p.1 - t)).length =
              vtableLenOf bM.field_locs := length_synthVT _ _ _
          have hskip := @writeBytes_append_skip (leBytes 4 (vtableLenOf bM.field_locs))
            (leBytes 4 4042322160 ++
              (List.replicate (padding_bytes (used_space bM + 4) 4) 0 ++ unfinished_data bM))
            (synthVT bM.field_locs p.1 (p.1 - t)) 0
          rw [hSlen] at hskip
          simp only [Nat.add_zero] at hskip
          rw [hskip, writeBytes_prefix_replace (by rw [length_leBytes, length_leBytes])]
        refine ⟨pr2, ?_, good_congr hgq rfl rfl, rfl, rfl, hqf, ?_, ?_⟩
        · exact hused_fin
        · exact hwfin
        · exact hunfin

theorem c10_witness :
    1073741823 < bigBuilder.owned_buf.length ∧ grow_owned_buf bigBuilder = none := by
  have hlen : 1073741823 < bigBuilder.owned_buf.length := by
    rw [show bigBuilder.owned_buf = List.replicate 1073741824 0 from rfl,
      List.length_replicate]
    norm_num
  exact ⟨hlen, c10_growth_cap_aborts.1 bigBuilder hlen⟩

/-- Effect of push_slot_always: the field-loc list gains exactly one entry
whose off is the new used_space and whose id is the slot, the live data is
extended by the value bytes plus alignment padding, and the value bytes sit
at tail-relative position used_space afterwards. -/
theorem push_slot_always_spec {i : Nat} {x : PushVal} {b b2 : FlatBufferBuilder}
    (hb : x.bytes.length = x.size) (hg : Good b)
    (h : push_slot_always i x b = some b2) :
    Good b2 ∧ b2.written_vtable_revpos = b.written_vtable_revpos ∧
    b2.nested = b.nested ∧ b2.finished = b.finished ∧
    b2.field_locs = b.field_locs ++ [⟨used_space b2, i⟩] ∧
    used_space b2 =
      used_space b + padding_bytes (used_space b + x.size) x.alignment + x.size ∧
    unfinished_data b2 =
      (x.bytes ++ List.replicate (padding_bytes (used_space b + x.size) x.alignment) 0) ++
        unfinished_data b ∧
    hasBytesAt b2 (used_space b2) x.bytes := by
  unfold push_slot_always at h
  cases hp : push x b with
  | none =>
    rw [hp] at h
    exact absurd h (by simp)
  | some p =>
    rw [hp, Option.map_some'] at h
    obtain rfl := (Option.some.inj h).symm
    obtain ⟨hgp, hh, hu, hunf, ⟨m1, m2, m3, m4⟩, _, _⟩ := push_spec hb hg hp
    have hu2 : used_space (track_field i p.1 p.2) = used_space p.2 := rfl
    have hunf2 : unfinished_data (track_field i p.1 p.2) = unfinished_data p.2 := rfl
    refine ⟨good_congr hgp rfl rfl, m2, m3, m4, ?_, ?_, ?_, ?_, Nat.le_refl _, ?_⟩
    · show p.2.field_locs ++ [⟨p.1, i⟩] = _
      rw [m1, hu2, ← hh]
    · rw [hu2, hu]
    · rw [hunf2, hunf]
    · rw [hb, hu2, hu]
      omega
    · rw [Nat.sub_self, hunf2, hunf, List.append_assoc]
      have ht := List.take_left x.bytes
        (List.replicate (padding_bytes (used_space b + x.size) x.alignment) 0 ++
          unfinished_data b)
      exact ht

/-- Phase-1 run: a sequence of push_slot calls with well-formed, non-default
fields appends one FieldLoc per field in order, each slot id matching and
each value's bytes staying readable at its recorded tail-relative offset, and
used_space grows by at most the sum of sizes plus alignments. -/
theorem runSlots_spec {fields : List (Nat × PushVal × PushVal)} :
    ∀ {b b2 : FlatBufferBuilder}, Good b → (∀ f ∈ fields, wfField f) →
    runSlots fields b = some b2 →
    Good b2 ∧ b2.written_vtable_revpos = b.written_vtable_revpos ∧
    b2.nested = b.nested ∧ b2.finished = b.finished ∧
    used_space b ≤ used_space b2 ∧
    used_space b2 ≤ used_space b + sumSA fields ∧
    (∃ t, unfinished_data b2 = t ++ unfinished_data b) ∧
    ∃ ls, b2.field_locs = b.field_locs ++ ls ∧
      List.Forall₂ (fun l f => l.id = f.1 ∧ used_space b ≤ l.off ∧
        hasBytesAt b2 l.off f.2.1.bytes) ls fields := by
  induction fields with
  | nil =>
    intro b b2 hg _ h
    have h2 : some b = some b2 := h
    obtain rfl := (Option.some.inj h2).symm
    have hs0 : sumSA [] = 0 := rfl
    exact ⟨hg, rfl, rfl, rfl, Nat.le_refl _, by omega, ⟨[], rfl⟩,
      ⟨[], (List.append_nil _).symm, List.Forall₂.nil⟩⟩
  | cons f fs ih =>
    intro b b2 hg hwf h
    obtain ⟨h4, he, hle65, hlen, ⟨k, hk, ha⟩, hne⟩ := hwf f (List.mem_cons_self _ _)
    replace h : (push_slot f.1 f.2.1 f.2.2 b).bind (runSlots fs) = some b2 := h
    have hstep : push_slot f.1 f.2.1 f.2.2 b = push_slot_always f.1 f.2.1 b := by
      unfold push_slot
      rw [if_neg hne]
    rw [hstep] at h
    cases hpa : push_slot_always f.1 f.2.1 b with
    | none =>
      rw [hpa] at h
      exact absurd h (by simp)
    | some bmid =>
      rw [hpa, Option.some_bind] at h
      obtain ⟨g1, g2, g3, g4, g5, g6, g7, g8⟩ := push_slot_always_spec hlen hg hpa
      obtain ⟨i1, i2, i3, i4, i5, i6, ⟨t2, i7⟩, ⟨ls, i8, i9⟩⟩ :=
        ih g1 (fun f2 h2 => hwf f2 (List.mem_cons_of_mem _ h2)) h
      have hMB : FLATBUFFERS_MAX_BUFFER_SIZE = 2147483647 := rfl
      have hub : used_space b ≤ 2147483647 := by
        have hc := hg.cle
        have hl := hg.hle
        rw [hMB] at hc
        show b.owned_buf.length - b.head ≤ 2147483647
        omega
      have humid : used_space bmid ≤ 2147483647 := by
        have hc := g1.cle
        have hl := g1.hle
        rw [hMB] at hc
        show bmid.owned_buf.length - bmid.head ≤ 2147483647
        omega
      have hbu : used_space b ≤ used_space bmid := by omega
      have hpb := (padding_bytes_pow2 (used_space b + f.2.1.size) k hk (by omega)).1
      rw [← ha] at hpb
      have hsc : sumSA (f :: fs) = f.2.1.size + f.2.1.alignment + sumSA fs := by
        show (f.2.1.size + f.2.1.alignment + (fs.map fun g => g.2.1.size + g.2.1.alignment).sum) = _
        rfl
      refine ⟨i1, i2.trans g2, i3.trans g3, i4.trans g4, le_trans hbu i5, by omega,
        ⟨t2 ++ (f.2.1.bytes ++
          List.replicate (padding_bytes (used_space b + f.2.1.size) f.2.1.alignment) 0), ?_⟩,
        ⟨⟨used_space bmid, f.1⟩ :: ls, ?_, ?_⟩⟩
      · rw [i7, g7]
        exact (List.append_assoc _ _ _).symm
      · rw [i8, g5, List.append_assoc, List.singleton_append]
      · refine List.Forall₂.cons ⟨rfl, hbu, hasBytesAt_extend g8 i7⟩ (i9.imp ?_)
        intro l f2 hr
        exact ⟨hr.1, le_trans hbu hr.2.1, hr.2.2⟩

theorem forall2_map_eq {α β γ : Type} {P : α → β → Prop} {g : α → γ} {g2 : β → γ}
    {xs : List α} {ys : List β} (h : List.Forall₂ P xs ys)
    (hid : ∀ x y, P x y → g x = g2 y) : xs.map g = ys.map g2 := by
  induction h with
  | nil => rfl
  | cons h1 h2 ih =>
    simp only [List.map_cons]
    rw [hid _ _ h1, ih]

theorem forall2_exists_left {α β : Type} {P : α → β → Prop} {xs : List α} {ys : List β}
    (h : List.Forall₂ P xs ys) {x : α} (hx : x ∈ xs) : ∃ y ∈ ys, P x y := by
  induction h with
  | nil => cases hx
  | cons h1 h2 ih =>
    rcases List.mem_cons.mp hx with rfl | hx2
    · exact ⟨_, List.mem_cons_self _ _, h1⟩
    · obtain ⟨y, hy, hp⟩ := ih hx2
      exact ⟨y, List.mem_cons_of_mem _ hy, hp⟩

theorem forall2_imp_mem {α β : Type} {P Q : α → β → Prop} {xs : List α} {ys : List β}
    (h : List.Forall₂ P xs ys)
    (himp : ∀ x ∈ xs, ∀ y ∈ ys, P x y → Q x y) : List.Forall₂ Q xs ys := by
  induction h with
  | nil => exact List.Forall₂.nil
  | cons h1 h2 ih =>
    exact List.Forall₂.cons
      (himp _ (List.mem_cons_self _ _) _ (List.mem_cons_self _ _) h1)
      (ih fun x hx y hy hp =>
        himp x (List.mem_cons_of_mem _ hx) y (List.mem_cons_of_mem _ hy) hp)

/-- end_table from a state with exactly one previously written vtable whose
bytes coincide with the vtable this table would synthesize: the dedup scan
hits, the scratch vtable is zeroed and released, nothing new is recorded, and
the table's soffset points back at the reused vtable at revpos `r`. -/
theorem end_table_dedup_spec {t r : Nat} {bM : FlatBufferBuilder}
    {prF : Nat × FlatBufferBuilder}
    (hg : Good bM) (hw : bM.written_vtable_revpos = [r])
    (hrle : r ≤ used_space bM)
    (h4 : ∀ l ∈ bM.field_locs, 4 ≤ l.id)
    (hle65 : ∀ l ∈ bM.field_locs, l.id ≤ 65532)
    (hVB : hasBytesAt bM r
      (synthVT bM.field_locs (used_space bM + padding_bytes (used_space bM + 4) 4 + 4)
        ((used_space bM + padding_bytes (used_space bM + 4) 4 + 4) - t)))
    (h : end_table t bM = some prF) :
    prF.1 = used_space bM + padding_bytes (used_space bM + 4) 4 + 4 ∧
    used_space prF.2 = prF.1 ∧
    Good prF.2 ∧ prF.2.nested = false ∧ prF.2.field_locs = [] ∧
    prF.2.finished = bM.finished ∧
    prF.2.written_vtable_revpos = [r] ∧
    unfinished_data prF.2 =
      encodeI32 ((r : Int) - (prF.1 : Int)) ++
        (List.replicate (padding_bytes (used_space bM + 4) 4) 0 ++
          unfinished_data bM) := by
  unfold end_table at h
  cases hwv : write_vtable t bM with
  | none =>
    rw [hwv] at h
    exact absurd h (by simp)
  | some q =>
    rw [hwv, Option.map_some'] at h
    obtain rfl := (Option.some.inj h).symm
    obtain ⟨hgq, _, _, hqf⟩ := write_vtable_good hg hwv
    unfold write_vtable at hwv
    cases hp : push (u32P 4042322160) bM with
    | none =>
      rw [hp] at hwv
      exact absurd hwv (by simp)
    | some p =>
      rw [hp, Option.some_bind] at hwv
      replace hwv : Option.map
        (fun b2 => (p.1, wvFinish p.1 t (vtableLenOf p.2.field_locs) b2))
        (fill (vtableLenOf p.2.field_locs) p.2) = some q := hwv
      cases hf : fill (vtableLenOf p.2.field_locs) p.2 with
      | none =>
        rw [hf] at hwv
        exact absurd hwv (by simp)
      | some b2 =>
        rw [hf, Option.map_some'] at hwv
        obtain rfl := (Option.some.inj hwv)
        obtain ⟨pr1, pr2, pr3, pr4, pr5, pr6, pr7, pr8, pr9, pr10⟩ :=
          wv_pre_spec (t := t) hg hp hf
        have hvteq : vtableLenOf p.2.field_locs = vtableLenOf bM.field_locs := by rw [pr1]
        have hwr3 : (wvWriteRegion p.1 t (vtableLenOf p.2.field_locs) b2).written_vtable_revpos =
            [r] := pr7.trans hw
        rw [← pr2] at hVB
        have hsplit : unfinished_data (wvWriteRegion p.1 t (vtableLenOf p.2.field_locs) b2) =
            (synthVT bM.field_locs p.1 (p.1 - t) ++
              (leBytes 4 4042322160 ++
                List.replicate (padding_bytes (used_space bM + 4) 4) 0)) ++
              unfinished_data bM := by
          rw [pr4]
          simp only [List.append_assoc]
        obtain ⟨hVr, hVru, hVread⟩ := hasBytesAt_extend hVB hsplit
        have hSlen : (synthVT bM.field_locs p.1 (p.1 - t)).length =
            vtableLenOf bM.field_locs := length_synthVT _ _ _
        have hvtl4 : 4 ≤ vtableLenOf bM.field_locs := vtableLenOf_ge4 h4
        have hvtlle : vtableLenOf bM.field_locs ≤ 65534 := vtableLenOf_le (by norm_num) hle65
        have hru0 : readU16 (wvWriteRegion p.1 t (vtableLenOf p.2.field_locs) b2).owned_buf
            (wvWriteRegion p.1 t (vtableLenOf p.2.field_locs) b2).head =
            vtableLenOf bM.field_locs := by
          show leVal (readSlice (wvWriteRegion p.1 t (vtableLenOf p.2.field_locs) b2).owned_buf
            (wvWriteRegion p.1 t (vtableLenOf p.2.field_locs) b2).head 2) = _
          have hsh := readSlice_head_shift (wvWriteRegion p.1 t (vtableLenOf p.2.field_locs) b2) 0 2
          rw [Nat.add_zero] at hsh
          rw [hsh, pr4, readSlice_append_left (by rw [hSlen]; omega),
            readSlice_synthVT_len h4, leVal_leBytes,
            show (256:Nat) ^ 2 = 65536 from by norm_num]
          omega
        have hRp : vtRegion (wvWriteRegion p.1 t (vtableLenOf p.2.field_locs) b2).owned_buf
            (wvWriteRegion p.1 t (vtableLenOf p.2.field_locs) b2).head =
            synthVT bM.field_locs p.1 (p.1 - t) := by
          show readSlice (wvWriteRegion p.1 t (vtableLenOf p.2.field_locs) b2).owned_buf
            (wvWriteRegion p.1 t (vtableLenOf p.2.field_locs) b2).head
            (readU16 (wvWriteRegion p.1 t (vtableLenOf p.2.field_locs) b2).owned_buf
              (wvWriteRegion p.1 t (vtableLenOf p.2.field_locs) b2).head) = _
          rw [hru0]
          have hsh := readSlice_head_shift (wvWriteRegion p.1 t (vtableLenOf p.2.field_locs) b2)
            0 (vtableLenOf bM.field_locs)
          rw [Nat.add_zero] at hsh
          rw [hsh, pr4, readSlice_append_left (by rw [hSlen]; omega), ← hSlen]
          exact List.take_length _
        have hq : (wvWriteRegion p.1 t (vtableLenOf p.2.field_locs) b2).head +
            used_space (wvWriteRegion p.1 t (vtableLenOf p.2.field_locs) b2) - r =
            (wvWriteRegion p.1 t (vtableLenOf p.2.field_locs) b2).head +
              (used_space (wvWriteRegion p.1 t (vtableLenOf p.2.field_locs) b2) - r) := by
          omega
        have hru1 : readU16 (wvWriteRegion p.1 t (vtableLenOf p.2.field_locs) b2).owned_buf
            ((wvWriteRegion p.1 t (vtableLenOf p.2.field_locs) b2).head +
              used_space (wvWriteRegion p.1 t (vtableLenOf p.2.field_locs) b2) - r) =
            vtableLenOf bM.field_locs := by
          show leVal (readSlice (wvWriteRegion p.1 t (vtableLenOf p.2.field_locs) b2).owned_buf
            ((wvWriteRegion p.1 t (vtableLenOf p.2.field_locs) b2).head +
              used_space (wvWriteRegion p.1 t (vtableLenOf p.2.field_locs) b2) - r) 2) = _
          rw [hq, readSlice_head_shift,
            readSlice_take_of_le (show (2:Nat) ≤ (synthVT bM.field_locs p.1 (p.1 - t)).length
              from by rw [hSlen]; omega),
            hVread,
            show (synthVT bM.field_locs p.1 (p.1 - t)).take 2 =
              readSlice (synthVT bM.field_locs p.1 (p.1 - t)) 0 2 from rfl,
            readSlice_synthVT_len h4, leVal_leBytes,
            show (256:Nat) ^ 2 = 65536 from by norm_num]
          omega
        have hRq : vtRegion (wvWriteRegion p.1 t (vtableLenOf p.2.field_locs) b2).owned_buf
            ((wvWriteRegion p.1 t (vtableLenOf p.2.field_locs) b2).head +
              used_space (wvWriteRegion p.1 t (vtableLenOf p.2.field_locs) b2) - r) =
            synthVT bM.field_locs p.1 (p.1 - t) := by
          show readSlice (wvWriteRegion p.1 t (vtableLenOf p.2.field_locs) b2).owned_buf
            ((wvWriteRegion p.1 t (vtableLenOf p.2.field_locs) b2).head +
              used_space (wvWriteRegion p.1 t (vtableLenOf p.2.field_locs) b2) - r)
            (readU16 (wvWriteRegion p.1 t (vtableLenOf p.2.field_locs) b2).owned_buf
              ((wvWriteRegion p.1 t (vtableLenOf p.2.field_locs) b2).head +
                used_space (wvWriteRegion p.1 t (vtableLenOf p.2.field_locs) b2) - r)) = _
          rw [hru1, hq, readSlice_head_shift, ← hSlen]
          exact hVread
        have hEq : vtEqAt (wvWriteRegion p.1 t (vtableLenOf p.2.field_locs) b2).owned_buf
            (wvWriteRegion p.1 t (vtableLenOf p.2.field_locs) b2).head
            ((wvWriteRegion p.1 t (vtableLenOf p.2.field_locs) b2).head +
              used_space (wvWriteRegion p.1 t (vtableLenOf p.2.field_locs) b2) - r) = true := by
          unfold vtEqAt
          rw [hRp, hRq]
          simp
        have hfind : ((wvWriteRegion p.1 t
            (vtableLenOf p.2.field_locs) b2).written_vtable_revpos.reverse.find? fun rr =>
            vtEqAt (wvWriteRegion p.1 t (vtableLenOf p.2.field_locs) b2).owned_buf
              (wvWriteRegion p.1 t (vtableLenOf p.2.field_locs) b2).head
              ((wvWriteRegion p.1 t (vtableLenOf p.2.field_locs) b2).head +
                used_space (wvWriteRegion p.1 t (vtableLenOf p.2.field_locs) b2) - rr)) =
            some r := by
          rw [hwr3, List.reverse_singleton]
          exact List.find?_cons_of_pos _ hEq
        have hded : wvDedup (vtableLenOf p.2.field_locs)
            (wvWriteRegion p.1 t (vtableLenOf p.2.field_locs) b2) =
            (r, { wvWriteRegion p.1 t (vtableLenOf p.2.field_locs) b2 with
              owned_buf := writeBytes
                (wvWriteRegion p.1 t (vtableLenOf p.2.field_locs) b2).owned_buf
                (wvWriteRegion p.1 t (vtableLenOf p.2.field_locs) b2).head
                (List.replicate (vtableLenOf p.2.field_locs) 0)
              head := (wvWriteRegion p.1 t (vtableLenOf p.2.field_locs) b2).head +
                vtableLenOf p.2.field_locs }) := by
          unfold wvDedup
          rw [hfind]
        have hub4 : used_space { wvWriteRegion p.1 t (vtableLenOf p.2.field_locs) b2 with
            owned_buf := writeBytes
              (wvWriteRegion p.1 t (vtableLenOf p.2.field_locs) b2).owned_buf
              (wvWriteRegion p.1 t (vtableLenOf p.2.field_locs) b2).head
              (List.replicate (vtableLenOf p.2.field_locs) 0)
            head := (wvWriteRegion p.1 t (vtableLenOf p.2.field_locs) b2).head +
              vtableLenOf p.2.field_locs } = p.1 := by
          show (writeBytes (wvWriteRegion p.1 t (vtableLenOf p.2.field_locs) b2).owned_buf
            (wvWriteRegion p.1 t (vtableLenOf p.2.field_locs) b2).head
            (List.replicate (vtableLenOf p.2.field_locs) 0)).length -
            ((wvWriteRegion p.1 t (vtableLenOf p.2.field_locs) b2).head +
              vtableLenOf p.2.field_locs) = p.1
          rw [length_writeBytes]
          have h5 : used_space (wvWriteRegion p.1 t (vtableLenOf p.2.field_locs) b2) =
              p.1 + vtableLenOf bM.field_locs := pr5
          have h5b : (wvWriteRegion p.1 t (vtableLenOf p.2.field_locs) b2).owned_buf.length -
              (wvWriteRegion p.1 t (vtableLenOf p.2.field_locs) b2).head =
              p.1 + vtableLenOf bM.field_locs := h5
          have h6 := pr6
          omega
        have hne : r ≠ used_space { wvWriteRegion p.1 t (vtableLenOf p.2.field_locs) b2 with
            owned_buf := writeBytes
              (wvWriteRegion p.1 t (vtableLenOf p.2.field_locs) b2).owned_buf
              (wvWriteRegion p.1 t (vtableLenOf p.2.field_locs) b2).head
              (List.replicate (vtableLenOf p.2.field_locs) 0)
            head := (wvWriteRegion p.1 t (vtableLenOf p.2.field_locs) b2).head +
              vtableLenOf p.2.field_locs } := by
          rw [hub4]
          omega
        have hrec : wvRecord (r, { wvWriteRegion p.1 t (vtableLenOf p.2.field_locs) b2 with
            owned_buf := writeBytes
              (wvWriteRegion p.1 t (vtableLenOf p.2.field_locs) b2).owned_buf
              (wvWriteRegion p.1 t (vtableLenOf p.2.field_locs) b2).head
              (List.replicate (vtableLenOf p.2.field_locs) 0)
            head := (wvWriteRegion p.1 t (vtableLenOf p.2.field_locs) b2).head +
              vtableLenOf p.2.field_locs }) =
            { wvWriteRegion p.1 t (vtableLenOf p.2.field_locs) b2 with
              owned_buf := writeBytes
                (wvWriteRegion p.1 t (vtableLenOf p.2.field_locs) b2).owned_buf
                (wvWriteRegion p.1 t (vtableLenOf p.2.field_locs) b2).head
                (List.replicate (vtableLenOf p.2.field_locs) 0)
              head := (wvWriteRegion p.1 t (vtableLenOf p.2.field_locs) b2).head +
                vtableLenOf p.2.field_locs } := by
          unfold wvRecord
          rw [if_neg hne]
        have hq2 : wvFinish p.1 t (vtableLenOf p.2.field_locs) b2 =
            { wvPatch p.1 r { wvWriteRegion p.1 t (vtableLenOf p.2.field_locs) b2 with
              owned_buf := writeBytes
                (wvWriteRegion p.1 t (vtableLenOf p.2.field_locs) b2).owned_buf
                (wvWriteRegion p.1 t (vtableLenOf p.2.field_locs) b2).head
                (List.replicate (vtableLenOf p.2.field_locs) 0)
              head := (wvWriteRegion p.1 t (vtableLenOf p.2.field_locs) b2).head +
                vtableLenOf p.2.field_locs } with
              field_locs := [] } := by
          unfold wvFinish
          rw [hded, hrec]
        have hunfb4 : unfinished_data { wvWriteRegion p.1 t (vtableLenOf p.2.field_locs) b2 with
            owned_buf := writeBytes
              (wvWriteRegion p.1 t (vtableLenOf p.2.field_locs) b2).owned_buf
              (wvWriteRegion p.1 t (vtableLenOf p.2.field_locs) b2).head
              (List.replicate (vtableLenOf p.2.field_locs) 0)
            head := (wvWriteRegion p.1 t (vtableLenOf p.2.field_locs) b2).head +
              vtableLenOf p.2.field_locs } =
            leBytes 4 4042322160 ++
              (List.replicate (padding_bytes (used_space bM + 4) 4) 0 ++
                unfinished_data bM) := by
          show (writeBytes (wvWriteRegion p.1 t (vtableLenOf p.2.field_locs) b2).owned_buf
            (wvWriteRegion p.1 t (vtableLenOf p.2.field_locs) b2).head
            (List.replicate (vtableLenOf p.2.field_locs) 0)).drop
            ((wvWriteRegion p.1 t (vtableLenOf p.2.field_locs) b2).head +
              vtableLenOf p.2.field_locs) = _
          rw [writeBytes_drop_ge (by rw [List.length_replicate]),
            ← List.drop_drop]
          have hud : (wvWriteRegion p.1 t (vtableLenOf p.2.field_locs) b2).owned_buf.drop
              (wvWriteRegion p.1 t (vtableLenOf p.2.field_locs) b2).head =
              unfinished_data (wvWriteRegion p.1 t (vtableLenOf p.2.field_locs) b2) := rfl
          rw [hud, pr4, hvteq, ← hSlen]
          exact List.drop_left _ _
        have hused_fin : used_space (wvFinish p.1 t (vtableLenOf p.2.field_locs) b2) = p.1 := by
          rw [hq2]
          have hup : used_space ({ wvPatch p.1 r
              { wvWriteRegion p.1 t (vtableLenOf p.2.field_locs) b2 with
                owned_buf := writeBytes
                  (wvWriteRegion p.1 t (vtableLenOf p.2.field_locs) b2).owned_buf
                  (wvWriteRegion p.1 t (vtableLenOf p.2.field_locs) b2).head
                  (List.replicate (vtableLenOf p.2.field_locs) 0)
                head := (wvWriteRegion p.1 t (vtableLenOf p.2.field_locs) b2).head +
                  vtableLenOf p.2.field_locs } with
              field_locs := ([] : List FieldLoc) }) =
              used_space (wvPatch p.1 r
              { wvWriteRegion p.1 t (vtableLenOf p.2.field_locs) b2 with
                owned_buf := writeBytes
                  (wvWriteRegion p.1 t (vtableLenOf p.2.field_locs) b2).owned_buf
                  (wvWriteRegion p.1 t (vtableLenOf p.2.field_locs) b2).head
                  (List.replicate (vtableLenOf p.2.field_locs) 0)
                head := (wvWriteRegion p.1 t (vtableLenOf p.2.field_locs) b2).head +
                  vtableLenOf p.2.field_locs }) := rfl
          rw [hup, used_wvPatch]
          exact hub4
        have hwfin : (wvFinish p.1 t (vtableLenOf p.2.field_locs) b2).written_vtable_revpos =
            [r] := by
          rw [hq2]
          show (wvWriteRegion p.1 t (vtableLenOf p.2.field_locs) b2).written_vtable_revpos = [r]
          exact hwr3
        have hunfin : unfinished_data (wvFinish p.1 t (vtableLenOf p.2.field_locs) b2) =
            encodeI32 ((r : Int) - (p.1 : Int)) ++
              (List.replicate (padding_bytes (used_space bM + 4) 4) 0 ++
                unfinished_data bM) := by
          rw [hq2]
          have hfl0 : unfinished_data ({ wvPatch p.1 r
              { wvWriteRegion p.1 t (vtableLenOf p.2.field_locs) b2 with
                owned_buf := writeBytes
                  (wvWriteRegion p.1 t (vtableLenOf p.2.field_locs) b2).owned_buf
                  (wvWriteRegion p.1 t (vtableLenOf p.2.field_locs) b2).head
                  (List.replicate (vtableLenOf p.2.field_locs) 0)
                head := (wvWriteRegion p.1 t (vtableLenOf p.2.field_locs) b2).head +
                  vtableLenOf p.2.field_locs } with
              field_locs := ([] : List FieldLoc) }) =
              unfinished_data (wvPatch p.1 r
              { wvWriteRegion p.1 t (vtableLenOf p.2.field_locs) b2 with
                owned_buf := writeBytes
                  (wvWriteRegion p.1 t (vtableLenOf p.2.field_locs) b2).owned_buf
                  (wvWriteRegion p.1 t (vtableLenOf p.2.field_locs) b2).head
                  (List.replicate (vtableLenOf p.2.field_locs) 0)
                head := (wvWriteRegion p.1 t (vtableLenOf p.2.field_locs) b2).head +
                  vtableLenOf p.2.field_locs }) := rfl
          rw [hfl0, unfin_wvPatch r (le_of_eq hub4.symm), hub4, Nat.sub_self, hunfb4,
            writeBytes_prefix_replace (by rw [length_encodeI32, length_leBytes])]
        refine ⟨pr2, ?_, good_congr hgq rfl rfl, rfl, rfl, hqf, ?_, ?_⟩
        · exact hused_fin
        · exact hwfin
        · exact hunfin

/-- C1: for every sequence of push_slot calls with well-formed slots and values
differing from their defaults, run between start_table and end_table from a
state with no pending fields and no previously written vtable, the produced
table's vtable (the head of the unfinished data) maps each slot id to the
nonzero u16 value table_start minus the field's push position, and adding that
slot value to the table start locates the value's serialized bytes. -/
theorem c1_push_slot_vtable_slots
    {fields : List (Nat × PushVal × PushVal)} {b bM : FlatBufferBuilder}
    {prF : Nat × FlatBufferBuilder}
    (hg : Good b) (hfl : b.field_locs = []) (hw : b.written_vtable_revpos = [])
    (hwf : ∀ f ∈ fields, wfField f)
    (hdist : (fields.map fun f => f.1).Pairwise (· ≠ ·))
    (hbound : used_space b + sumSA fields + 8 ≤ 65536)
    (hrun : runSlots fields (start_table b).2 = some bM)
    (hend : end_table (start_table b).1 bM = some prF) :
    List.Forall₂ (fun l f =>
      l.id = f.1 ∧
      readU16 (unfinished_data prF.2) l.id = prF.1 - l.off ∧
      prF.1 - l.off ≠ 0 ∧
      readSlice (unfinished_data prF.2)
        ((used_space prF.2 - prF.1) + (prF.1 - l.off)) f.2.1.bytes.length =
        f.2.1.bytes)
      bM.field_locs fields := by
  have hgT : Good (start_table b).2 := good_congr hg rfl rfl
  obtain ⟨hgM, hwM, _, _, huLe, huUb, ⟨t0, hext⟩, ⟨ls, hls, hfa⟩⟩ :=
    runSlots_spec hgT hwf hrun
  have hflT : (start_table b).2.field_locs = [] := hfl
  have hwT : (start_table b).2.written_vtable_revpos = [] := hw
  rw [hwT] at hwM
  have hlsM : bM.field_locs = ls := by
    rw [hls, hflT, List.nil_append]
  have huT : used_space (start_table b).2 = used_space b := rfl
  rw [huT] at huLe huUb hfa
  have hprops : ∀ l ∈ ls, 4 ≤ l.id ∧ l.id % 2 = 0 ∧ l.id ≤ 65532 := by
    intro l hl
    obtain ⟨f, hfm, hp⟩ := forall2_exists_left hfa hl
    obtain ⟨w4, we, wle, _, _, _⟩ := hwf f hfm
    rw [hp.1]
    exact ⟨w4, we, wle⟩
  have heven : ∀ l ∈ ls, l.id % 2 = 0 := fun l hl => (hprops l hl).2.1
  have hle65 : ∀ l ∈ ls, l.id ≤ 65532 := fun l hl => (hprops l hl).2.2
  have hmap : ls.map FieldLoc.id = fields.map (fun f => f.1) :=
    forall2_map_eq hfa (fun l f hp => hp.1)
  have hdist2 : (ls.map FieldLoc.id).Pairwise (· ≠ ·) := by
    rw [hmap]
    exact hdist
  have hvtl : vtableLenOf ls ≤ 65534 := vtableLenOf_le (by norm_num) hle65
  have hvtl32 : vtableLenOf bM.field_locs < 2147483648 := by
    rw [hlsM]
    omega
  obtain ⟨e1, e2, _, _, _, _, _, e8⟩ := end_table_fresh_spec hgM hwM hvtl32 hend
  rw [hlsM] at e2 e8 ⊢
  have hs17 : used_space bM + 4 ≤ 17179869184 := by omega
  have hpp := (padding_bytes_pow2 (used_space bM + 4) 2 (by norm_num) hs17).1
  rw [show (2:Nat) ^ 2 = 4 from by norm_num] at hpp
  refine forall2_imp_mem hfa ?_
  intro l hl f hfm hp
  obtain ⟨hid, hoffge, hB⟩ := hp
  have hoffle : l.off ≤ used_space bM := hB.2.1
  refine ⟨hid, ?_, by omega, ?_⟩
  · show leVal (readSlice (unfinished_data prF.2) l.id 2) = prF.1 - l.off
    rw [e8, readSlice_append_left
        (by rw [length_synthVT]; exact id_add_two_le_vtableLenOf hl),
      readSlice_synthVT_slot hdist2 heven hl, leVal_leBytes,
      show (256:Nat) ^ 2 = 65536 from by norm_num]
    omega
  · have hext2 : unfinished_data prF.2 =
        (synthVT ls prF.1 (prF.1 - (start_table b).1) ++
          (leBytes 4 (vtableLenOf ls) ++
            List.replicate (padding_bytes (used_space bM + 4) 4) 0)) ++
          unfinished_data bM := by
      rw [e8]
      simp only [List.append_assoc]
    obtain ⟨_, _, hreadF⟩ := hasBytesAt_extend hB hext2
    have hidx : (used_space prF.2 - prF.1) + (prF.1 - l.off) =
        used_space prF.2 - l.off := by omega
    rw [hidx]
    exact hreadF

/-- Witness for C1 at the one-field run c1Fields from a fresh builder. -/
theorem c1_witness :
    List.Forall₂ (fun l f =>
      l.id = f.1 ∧
      readU16 (unfinished_data c1Fin.2) l.id = c1Fin.1 - l.off ∧
      c1Fin.1 - l.off ≠ 0 ∧
      readSlice (unfinished_data c1Fin.2)
        ((used_space c1Fin.2 - c1Fin.1) + (c1Fin.1 - l.off)) f.2.1.bytes.length =
        f.2.1.bytes)
      c1Mid.field_locs c1Fields :=
  c1_push_slot_vtable_slots (b := fbEmpty)
    ⟨Nat.le_refl 0, by decide, fun i hi => absurd hi (Nat.not_lt_zero i)⟩
    rfl rfl
    (fun f hf => by
      have hf2 : f = (4, u16P 4660, u16P 0) := List.mem_singleton.mp hf
      subst hf2
      exact ⟨by norm_num, by norm_num, by norm_num, by decide,
        ⟨1, by norm_num, by decide⟩, by decide⟩)
    (by decide)
    (by decide)
    rfl rfl

/-- C3: constructing two tables whose synthesized vtables are byte-identical
increments num_written_vtables by exactly 1 across both constructions: the
first end_table records one vtable position, the second deduplicates onto it
without recording anything, and the second table's soffset points back at the
reused (single, most recently written) vtable, whose bytes are still in
place. -/
theorem c3_vtable_dedup_single_write
    {fields1 fields2 : List (Nat × PushVal × PushVal)} {b : FlatBufferBuilder}
    {bM1 bM2 : FlatBufferBuilder} {pr1 pr2 : Nat × FlatBufferBuilder}
    (hg : Good b) (hfl : b.field_locs = []) (hw : b.written_vtable_revpos = [])
    (hwf1 : ∀ f ∈ fields1, wfField f) (hwf2 : ∀ f ∈ fields2, wfField f)
    (hrun1 : runSlots fields1 (start_table b).2 = some bM1)
    (hend1 : end_table (start_table b).1 bM1 = some pr1)
    (hrun2 : runSlots fields2 (start_table pr1.2).2 = some bM2)
    (hend2 : end_table (start_table pr1.2).1 bM2 = some pr2)
    (hident : synthVT bM2.field_locs
        (used_space bM2 + padding_bytes (used_space bM2 + 4) 4 + 4)
        ((used_space bM2 + padding_bytes (used_space bM2 + 4) 4 + 4) -
          (start_table pr1.2).1) =
      synthVT bM1.field_locs pr1.1 (pr1.1 - (start_table b).1)) :
    num_written_vtables b = 0 ∧
    num_written_vtables pr1.2 = 1 ∧
    num_written_vtables pr2.2 = 1 ∧
    pr2.2.written_vtable_revpos = pr1.2.written_vtable_revpos ∧
    pr1.2.written_vtable_revpos = [pr1.1 + vtableLenOf bM1.field_locs] ∧
    readI32 (unfinished_data pr2.2) 0 =
      ((pr1.1 + vtableLenOf bM1.field_locs : Nat) : Int) - (pr2.1 : Int) ∧
    hasBytesAt pr2.2 (pr1.1 + vtableLenOf bM1.field_locs)
      (synthVT bM1.field_locs pr1.1 (pr1.1 - (start_table b).1)) := by
  have hgT1 : Good (start_table b).2 := good_congr hg rfl rfl
  obtain ⟨hgM1, hwM1, _, _, huLe1, huUb1, ⟨t01, hext1⟩, ⟨ls1, hls1, hfa1⟩⟩ :=
    runSlots_spec hgT1 hwf1 hrun1
  have hwT : (start_table b).2.written_vtable_revpos = [] := hw
  rw [hwT] at hwM1
  have hflT : (start_table b).2.field_locs = [] := hfl
  have hlsM1 : bM1.field_locs = ls1 := by
    rw [hls1, hflT, List.nil_append]
  have hprops1 : ∀ l ∈ ls1, 4 ≤ l.id ∧ l.id ≤ 65532 := by
    intro l hl
    obtain ⟨f, hfm, hp⟩ := forall2_exists_left hfa1 hl
    obtain ⟨w4, _, wle, _, _, _⟩ := hwf1 f hfm
    rw [hp.1]
    exact ⟨w4, wle⟩
  have hvtlle1 : vtableLenOf bM1.field_locs ≤ 65534 := by
    rw [hlsM1]
    exact vtableLenOf_le (by norm_num) (fun l hl => (hprops1 l hl).2)
  have hvtl1 : vtableLenOf bM1.field_locs < 2147483648 := by omega
  obtain ⟨e1, e2, e3, e4, e5, e6, e7, e8⟩ := end_table_fresh_spec hgM1 hwM1 hvtl1 hend1
  have hSlen1 : (synthVT bM1.field_locs pr1.1 (pr1.1 - (start_table b).1)).length =
      vtableLenOf bM1.field_locs := length_synthVT _ _ _
  have hBV1 : hasBytesAt pr1.2 (pr1.1 + vtableLenOf bM1.field_locs)
      (synthVT bM1.field_locs pr1.1 (pr1.1 - (start_table b).1)) := by
    refine ⟨by rw [hSlen1]; omega, by rw [e2], ?_⟩
    rw [e2, Nat.sub_self, e8]
    rw [readSlice_append_left (by omega)]
    exact List.take_length _
  have hgT2 : Good (start_table pr1.2).2 := good_congr e3 rfl rfl
  obtain ⟨hgM2, hwM2, _, _, huLe2, huUb2, ⟨t02, hext2⟩, ⟨ls2, hls2, hfa2⟩⟩ :=
    runSlots_spec hgT2 hwf2 hrun2
  have hwT2 : (start_table pr1.2).2.written_vtable_revpos =
      [pr1.1 + vtableLenOf bM1.field_locs] := e7
  rw [hwT2] at hwM2
  have hflT2 : (start_table pr1.2).2.field_locs = [] := e5
  have hlsM2 : bM2.field_locs = ls2 := by
    rw [hls2, hflT2, List.nil_append]
  have hprops2 : ∀ l ∈ ls2, 4 ≤ l.id ∧ l.id ≤ 65532 := by
    intro l hl
    obtain ⟨f, hfm, hp⟩ := forall2_exists_left hfa2 hl
    obtain ⟨w4, _, wle, _, _, _⟩ := hwf2 f hfm
    rw [hp.1]
    exact ⟨w4, wle⟩
  have h42 : ∀ l ∈ bM2.field_locs, 4 ≤ l.id := by
    rw [hlsM2]
    exact fun l hl => (hprops2 l hl).1
  have hle652 : ∀ l ∈ bM2.field_locs, l.id ≤ 65532 := by
    rw [hlsM2]
    exact fun l hl => (hprops2 l hl).2
  have hext2b : unfinished_data bM2 = t02 ++ unfinished_data pr1.2 := hext2
  have hBV2 : hasBytesAt bM2 (pr1.1 + vtableLenOf bM1.field_locs)
      (synthVT bM1.field_locs pr1.1 (pr1.1 - (start_table b).1)) :=
    hasBytesAt_extend hBV1 hext2b
  have hused12 : used_space (start_table pr1.2).2 = used_space pr1.2 := rfl
  have hrle2 : pr1.1 + vtableLenOf bM1.field_locs ≤ used_space bM2 := by
    have h1 := huLe2
    rw [hused12, e2] at h1
    exact h1
  have hBV2i : hasBytesAt bM2 (pr1.1 + vtableLenOf bM1.field_locs)
      (synthVT bM2.field_locs
        (used_space bM2 + padding_bytes (used_space bM2 + 4) 4 + 4)
        ((used_space bM2 + padding_bytes (used_space bM2 + 4) 4 + 4) -
          (start_table pr1.2).1)) := by
    rw [hident]
    exact hBV2
  obtain ⟨d1, d2, d3, _, _, _, d7, d8⟩ :=
    end_table_dedup_spec hgM2 hwM2 hrle2 h42 hle652 hBV2i hend2
  have hp2b : pr2.1 ≤ 2147483647 := by
    have hc := d3.cle
    have hl := d3.hle
    have hMB : FLATBUFFERS_MAX_BUFFER_SIZE = 2147483647 := rfl
    rw [hMB] at hc
    have hud : used_space pr2.2 = pr2.2.owned_buf.length - pr2.2.head := rfl
    omega
  refine ⟨?_, ?_, ?_, ?_, e7, ?_, ?_⟩
  · show b.written_vtable_revpos.length = 0
    rw [hw]
    rfl
  · show pr1.2.written_vtable_revpos.length = 1
    rw [e7]
    rfl
  · show pr2.2.written_vtable_revpos.length = 1
    rw [d7]
    rfl
  · rw [d7, e7]
  · refine readI32_encode (by omega) (by omega) ?_
    rw [d8, readSlice_append_left (by rw [length_encodeI32])]
    rw [show (4 : Nat) =
      (encodeI32 (((pr1.1 + vtableLenOf bM1.field_locs : Nat) : Int) -
        (pr2.1 : Int))).length from (length_encodeI32 _).symm]
    exact List.take_length _
  · have hsplitF : unfinished_data pr2.2 =
        (encodeI32 (((pr1.1 + vtableLenOf bM1.field_locs : Nat) : Int) - (pr2.1 : Int)) ++
          List.replicate (padding_bytes (used_space bM2 + 4) 4) 0) ++
          unfinished_data bM2 := by
      rw [d8]
      simp only [List.append_assoc]
    exact hasBytesAt_extend hBV2 hsplitF

/-- Witness for C3 at two consecutive empty tables from a fresh builder. -/
theorem c3_witness :
    num_written_vtables fbEmpty = 0 ∧
    num_written_vtables c3Pr1.2 = 1 ∧
    num_written_vtables c3Pr2.2 = 1 ∧
    c3Pr2.2.written_vtable_revpos = c3Pr1.2.written_vtable_revpos ∧
    c3Pr1.2.written_vtable_revpos = [c3Pr1.1 + vtableLenOf c3M1.field_locs] ∧
    readI32 (unfinished_data c3Pr2.2) 0 =
      ((c3Pr1.1 + vtableLenOf c3M1.field_locs : Nat) : Int) - (c3Pr2.1 : Int) ∧
    hasBytesAt c3Pr2.2 (c3Pr1.1 + vtableLenOf c3M1.field_locs)
      (synthVT c3M1.field_locs c3Pr1.1 (c3Pr1.1 - (start_table fbEmpty).1)) :=
  @c3_vtable_dedup_single_write [] [] fbEmpty c3M1 c3M2 c3Pr1 c3Pr2
    ⟨Nat.le_refl 0, by decide, fun i hi => absurd hi (Nat.not_lt_zero i)⟩
    rfl rfl
    (fun f hf => absurd hf (List.not_mem_nil f))
    (fun f hf => absurd hf (List.not_mem_nil f))
    rfl rfl rfl rfl
    (by decide)

end FB
